import Mathlib

/-!
Verification of the flat-file record store of the car-service repository.

The C++ sources (Customer.cpp, Vehicle.cpp, Discount.cpp, Service.cpp) are
shallow-embedded below.  A file is modelled as its character content
(`Str := List Char`); `std::getline` with a delimiter is modelled by
`cppTokens`; `std::stoi` by `stoi?` (returning `none` where the C++ function
throws, including the `int` range check); `std::stod` by `stod?` over `ℚ`;
`std::ostream` default formatting of `double` by `doubleToChars`;
`std::map<int, T>` by a sorted association list built with `insertSorted`.
-/

namespace CarService

/-- A file's (or a line's, or a field's) character content. -/
abbrev Str := List Char

/-- The token sequence produced by repeatedly calling `std::getline (ss, tok, d)`
on a stream holding `s`: each read stops at the delimiter (consuming it) or at
end of input, and a read that starts at end of input fails, so a trailing
delimiter does not yield a trailing empty token and an empty input yields no
token at all. -/
def cppTokens (d : Char) : Str → List Str
  | [] => []
  | c :: rest =>
    if c = d then [] :: cppTokens d rest
    else
      match cppTokens d rest with
      | [] => [[c]]
      | t :: ts => (c :: t) :: ts

/-- Whitespace as classified by `isspace` in the default locale
(used by `std::stoi` / `std::stod` to skip leading characters). -/
def isCppSpace (c : Char) : Bool :=
  c = ' ' || c = '\t' || c = '\n' || c = Char.ofNat 11 || c = Char.ofNat 12 || c = '\r'

/-- Numeric value of a maximal leading digit run; `none` when there is no
leading digit (where `std::stoi` throws `invalid_argument`). -/
def digitRunVal? (cs : List Char) : Option Nat :=
  let ds := cs.takeWhile Char.isDigit
  if ds.isEmpty then none
  else some (ds.foldl (fun a c => a * 10 + (c.toNat - 48)) 0)

/-- Smallest value of the C++ `int` type. -/
def intMin : Int := -2147483648

/-- Largest value of the C++ `int` type. -/
def intMax : Int := 2147483647

/-- Model of `std::stoi`: skip leading whitespace, read an optional sign and a
maximal digit run (trailing characters are ignored), and yield `none` exactly
where the C++ call throws — no digit (`invalid_argument`) or a value outside
`int`'s range (`out_of_range`). -/
def stoi? (s : Str) : Option Int :=
  let body := s.dropWhile isCppSpace
  let signed : Option Int :=
    if body.headD ' ' = '-' then (digitRunVal? body.tail).map (fun n => -(n : Int))
    else if body.headD ' ' = '+' then (digitRunVal? body.tail).map (fun n => (n : Int))
    else (digitRunVal? body).map (fun n => (n : Int))
  match signed with
  | none => none
  | some v => if v < intMin || intMax < v then none else some v

/-- Decimal digit characters of a natural number, most significant first,
computed with explicit fuel so that the kernel can evaluate it. -/
def natCharsAux : Nat → Nat → List Char
  | 0, _ => []
  | _ + 1, 0 => []
  | fuel + 1, n => natCharsAux fuel (n / 10) ++ [Char.ofNat (48 + n % 10)]

/-- Decimal rendering of a natural number (as produced by `operator<<`). -/
def natToChars (n : Nat) : List Char :=
  if n = 0 then ['0'] else natCharsAux n n

/-- Decimal rendering of an `int` (as produced by `operator<<`). -/
def intToChars (i : Int) : List Char :=
  if i < 0 then '-' :: natToChars i.natAbs else natToChars i.natAbs

/-! ### Model of `double` values and their text form

The store code uses `double` values only through `std::stod` (on load) and
`operator<<` with default stream flags (on save); no arithmetic is performed
on them.  The value domain is therefore modelled as `ℚ`.  `stod?` reads the
decimal prefix exactly, and `doubleToChars` renders the `defaultfloat`,
precision-6 form (the `%g` rules).  Both are exact for every value that needs
at most six significant decimal digits — which covers every number appearing
in this repository's data, defaults and tests; for other values they are the
ideal-rational analogue of the IEEE-double functions (ties in rounding go to
even, matching the usual IEEE direction). -/

/-- Round `a / b` (with `b ≠ 0`) to the nearest natural number, ties to even. -/
def natDivRound (a b : Nat) : Nat :=
  let q := a / b
  let r := a % b
  if 2 * r < b then q
  else if b < 2 * r then q + 1
  else if q % 2 = 0 then q else q + 1

/-- Number of decimal digits of a natural number (1 for 0). -/
def natDigitCount (n : Nat) : Nat := (natToChars n).length

/-- Floor of the base-10 logarithm of a positive rational `q = num / den`,
found by comparing against powers of ten. -/
def qLog10Floor (num den : Nat) : Int :=
  if den ≤ num then
    -- q ≥ 1: one less than the digit count of ⌊q⌋
    (natDigitCount (num / den) : Int) - 1
  else
    -- 0 < q < 1: the least k ≥ 1 with q * 10^k ≥ 1 gives the exponent -k
    match (List.range (natDigitCount den + 2)).find? (fun k => den ≤ num * 10 ^ k) with
    | some k => -(k : Int)
    | none => 0

/-- Drop trailing `'0'` characters (the `%g` rules strip trailing zeros of the
fractional part). -/
def stripTrailingZeros (s : List Char) : List Char :=
  (s.reverse.dropWhile (fun c => c = '0')).reverse

/-- Render the six significant digits `ds` (most significant first) of a value
whose floor-log10 is `e`, in fixed position, per the `%g` rules for
`-4 ≤ e ≤ 5`: place the decimal point after `e + 1` digits (padding with
leading zeros when `e < 0`) and strip trailing fractional zeros. -/
def fixedForm (ds : List Char) (e : Int) : List Char :=
  if 0 ≤ e then
    let ip := ds.take (e.toNat + 1)
    let fp := stripTrailingZeros (ds.drop (e.toNat + 1))
    if fp.isEmpty then ip else ip ++ '.' :: fp
  else
    let fp := stripTrailingZeros (List.replicate ((-e).toNat - 1) '0' ++ ds)
    '0' :: '.' :: fp

/-- Render the six significant digits `ds` with exponent `e` in scientific
position, per the `%g` rules: `d.ddddd` with trailing zeros stripped, then
`e`, the exponent sign, and the exponent padded to at least two digits. -/
def sciForm (ds : List Char) (e : Int) : List Char :=
  let mant :=
    match ds with
    | [] => ['0']
    | d :: rest =>
      let fp := stripTrailingZeros rest
      if fp.isEmpty then [d] else d :: '.' :: fp
  let en := (-e).toNat + e.toNat  -- |e| as a Nat
  let eds := natToChars en
  let eds := if eds.length < 2 then '0' :: eds else eds
  mant ++ 'e' :: (if e < 0 then '-' else '+') :: eds

/-- Model of `operator<<` on a `double` with default stream flags
(`defaultfloat`, precision 6): round the magnitude to six significant decimal
digits, then use fixed position when the decimal exponent lies in `[-4, 5]`
and scientific position otherwise. -/
def doubleToChars (q : ℚ) : List Char :=
  if q = 0 then ['0']
  else
    let sign : List Char := if q < 0 then ['-'] else []
    let num := q.num.natAbs
    let den := q.den
    let e0 := qLog10Floor num den
    -- round num/den * 10^(5 - e0) to an integer: six significant digits
    let k := 5 - e0
    let m0 :=
      if 0 ≤ k then natDivRound (num * 10 ^ k.toNat) den
      else natDivRound num (den * 10 ^ (-k).toNat)
    -- rounding may carry over to a seventh digit (e.g. 999999.5)
    let m := if m0 = 10 ^ 6 then 10 ^ 5 else m0
    let e := if m0 = 10 ^ 6 then e0 + 1 else e0
    let ds := natToChars m
    sign ++ (if -4 ≤ e ∧ e ≤ 5 then fixedForm ds e else sciForm ds e)

/-- Reading of the decimal text prefix by `std::strtod` / `std::stod`:
optional whitespace and sign, a mantissa with at least one digit and an
optional fraction, and an optional well-formed exponent part (an `e` not
followed by a digit is not consumed).  `none` where `std::stod` throws:
no conversion, or decimal overflow past `double`'s range (`out_of_range`,
detected here on the decimal exponent).  Hexadecimal, infinity and NaN
spellings are not modelled (they never arise in this repository's data). -/
def stod? (s : Str) : Option ℚ :=
  let body0 := s.dropWhile isCppSpace
  let neg := body0.headD ' ' = '-'
  let body := if body0.headD ' ' = '-' || body0.headD ' ' = '+' then body0.tail else body0
  let ip := body.takeWhile Char.isDigit
  let afterIp := body.drop ip.length
  let hasDot := afterIp.headD ' ' = '.'
  let fp := if hasDot then afterIp.tail.takeWhile Char.isDigit else []
  let afterFp := if hasDot then afterIp.tail.drop fp.length else afterIp
  if ip.isEmpty && fp.isEmpty then none
  else
    let mant := (ip ++ fp).foldl (fun a c => a * 10 + (c.toNat - 48)) 0
    let ex : Int :=
      if afterFp.headD ' ' = 'e' || afterFp.headD ' ' = 'E' then
        let rest := afterFp.tail
        let esign := rest.headD ' ' = '-'
        let erest := if rest.headD ' ' = '-' || rest.headD ' ' = '+' then rest.tail else rest
        let eds := erest.takeWhile Char.isDigit
        if eds.isEmpty then 0
        else
          let ev : Nat := eds.foldl (fun a c => a * 10 + (c.toNat - 48)) 0
          if esign then -(ev : Int) else (ev : Int)
      else 0
    let exTotal := ex - (fp.length : Int)
    -- overflow check: |value| ≥ 10^(digits + exponent - 1) which is past
    -- double's range when the decimal exponent exceeds 308
    if 309 < (natDigitCount mant : Int) + exTotal then none
    else
      let v : ℚ :=
        if 0 ≤ exTotal then mkRat (mant * 10 ^ exTotal.toNat) 1
        else mkRat mant (10 ^ (-exTotal).toNat)
      some (if neg then -v else v)

/-- Concatenation of a list of strings. -/
def strJoin (l : List Str) : Str := l.foldr (· ++ ·) []

end CarService

namespace CarService

/-- One record of the customer store (`struct Customer`). -/
structure Customer where
  id : Int
  name : Str
  phone : Str
  email : Str
deriving DecidableEq, Repr

/-- The line written for one customer by `saveCustomers`:
`ofs << c.id << '|' << c.name << '|' << c.phone << '|' << c.email`. -/
def encodeCustomerLine (c : Customer) : Str :=
  intToChars c.id ++ '|' :: (c.name ++ '|' :: (c.phone ++ '|' :: c.email))

/-- Decoding of one line inside the loop of `loadCustomers`: the first
`getline` on the line must succeed, `std::stoi` on the id field must not
throw, and the remaining fields default to the empty string when the line
has fewer fields (a failed `getline` leaves the target string empty). -/
def decodeCustomerLine (line : Str) : Option Customer :=
  match cppTokens '|' line with
  | [] => none
  | idStr :: restFields =>
    match stoi? idStr with
    | none => none
    | some i =>
      some { id := i
             name := restFields.getD 0 []
             phone := restFields.getD 1 []
             email := restFields.getD 2 [] }

/-- Model of `loadCustomers`: read the file line by line, skip empty lines, skip lines
whose decode throws, keep file order. -/
def loadCustomers (f : Str) : List Customer :=
  (cppTokens '\n' f).foldr
    (fun line acc =>
      if line.isEmpty then acc
      else match decodeCustomerLine line with
        | none => acc
        | some c => c :: acc)
    []

/-- Ordered insertion into a sorted association list; this is the effect of
`unique[k] = v` on a `std::map<int, T>` that does not contain `k`. -/
def insertSorted (k : Int) (v : α) : List (Int × α) → List (Int × α)
  | [] => [(k, v)]
  | (k2, v2) :: rest =>
    if k < k2 then (k, v) :: (k2, v2) :: rest
    else (k2, v2) :: insertSorted k v rest

/-- Whether the association list contains the key (`unique.count(k) != 0`). -/
def mapHasKey (m : List (Int × α)) (k : Int) : Bool := m.any (fun p => p.1 = k)

/-- The `std::map<int, T> unique` built by the save functions: insert each
record under its id, skipping records whose id is already present
(`if (unique.count(id) == 0) unique[id] = r;`). -/
def buildUniqueMap (key : α → Int) (l : List α) : List (Int × α) :=
  l.foldl (fun m r => if mapHasKey m (key r) then m else insertSorted (key r) r m) []

/-- The records `saveCustomers` writes, in file order: the values of the
`std::map` in ascending key order. -/
def savedCustomerRecords (l : List Customer) : List Customer :=
  (buildUniqueMap Customer.id l).map Prod.snd

/-- Model of `saveCustomers`: truncate the file and write every kept record as one
`'\n'`-terminated line. -/
def saveCustomers (l : List Customer) : Str :=
  strJoin ((savedCustomerRecords l).map (fun c => encodeCustomerLine c ++ ['\n']))

/-- Model of `nextCustomerId`: fold over the file's lines keeping the largest leading
id parsed so far, starting from 0, and add 1. -/
def nextCustomerId (f : Str) : Int :=
  ((cppTokens '\n' f).foldl
    (fun maxId line =>
      match cppTokens '|' line with
      | [] => maxId
      | idStr :: _ =>
        match stoi? idStr with
        | none => maxId
        | some i => if maxId < i then i else maxId)
    0) + 1

/-- Model of `deleteCustomer` with the interactive prompt abstracted to the id
argument: load, remove every record with that id, and save — but only if
some record matched (`remove_if` returned an iterator before `end`). -/
def deleteCustomer (f : Str) (id : Int) : Str :=
  let list := loadCustomers f
  if list.any (fun c => c.id = id) then
    saveCustomers (list.filter (fun c => ¬ c.id = id))
  else f

end CarService

namespace CarService

/-! ### Vehicle store (Vehicle.cpp) -/

/-- One record of the vehicle store (`struct Vehicle`). -/
structure Vehicle where
  id : Int
  customerId : Int
  regNo : Str
  model : Str
  color : Str
deriving DecidableEq, Repr

/-- The line written for one vehicle by `saveVehicles`. -/
def encodeVehicleLine (v : Vehicle) : Str :=
  intToChars v.id ++ '|' :: (intToChars v.customerId ++ '|' ::
    (v.regNo ++ '|' :: (v.model ++ '|' :: v.color)))

/-- Decoding of one line inside the loop of `loadVehicles`: id and customerId
must both parse (`std::stoi` throwing aborts the line); the string fields
default to empty when missing. -/
def decodeVehicleLine (line : Str) : Option Vehicle :=
  match cppTokens '|' line with
  | [] => none
  | idStr :: restFields =>
    match stoi? idStr with
    | none => none
    | some i =>
      match stoi? (restFields.getD 0 []) with
      | none => none
      | some cid =>
        some { id := i
               customerId := cid
               regNo := restFields.getD 1 []
               model := restFields.getD 2 []
               color := restFields.getD 3 [] }

/-- Model of `loadVehicles`: skip empty lines and lines whose decode throws. -/
def loadVehicles (f : Str) : List Vehicle :=
  (cppTokens '\n' f).foldr
    (fun line acc =>
      if line.isEmpty then acc
      else match decodeVehicleLine line with
        | none => acc
        | some v => v :: acc)
    []

/-- The records `saveVehicles` writes, in ascending id order. -/
def savedVehicleRecords (l : List Vehicle) : List Vehicle :=
  (buildUniqueMap Vehicle.id l).map Prod.snd

/-- Model of `saveVehicles`: truncate and rewrite the whole file. -/
def saveVehicles (l : List Vehicle) : Str :=
  strJoin ((savedVehicleRecords l).map (fun v => encodeVehicleLine v ++ ['\n']))

/-! ### Service store (Service.cpp) -/

/-- One record of the service catalog (`struct ServiceItem`). -/
structure ServiceItem where
  id : Int
  name : Str
  price : ℚ
deriving DecidableEq, Repr

/-- The line written for one service by `saveServices`. -/
def encodeServiceLine (s : ServiceItem) : Str :=
  intToChars s.id ++ '|' :: (s.name ++ '|' :: doubleToChars s.price)

/-- Decoding of one line inside the loop of `loadServices`: the id must
parse with `std::stoi` and the price with `std::stod`; either throwing
aborts the line. -/
def decodeServiceLine (line : Str) : Option ServiceItem :=
  match cppTokens '|' line with
  | [] => none
  | idStr :: restFields =>
    match stoi? idStr with
    | none => none
    | some i =>
      match stod? (restFields.getD 1 []) with
      | none => none
      | some p =>
        some { id := i, name := restFields.getD 0 [], price := p }

/-- Model of `loadServices`: skip empty lines and lines whose decode throws. -/
def loadServices (f : Str) : List ServiceItem :=
  (cppTokens '\n' f).foldr
    (fun line acc =>
      if line.isEmpty then acc
      else match decodeServiceLine line with
        | none => acc
        | some s => s :: acc)
    []

/-- The records `saveServices` writes, in ascending id order. -/
def savedServiceRecords (l : List ServiceItem) : List ServiceItem :=
  (buildUniqueMap ServiceItem.id l).map Prod.snd

/-- Model of `saveServices`: truncate and rewrite the whole file. -/
def saveServices (l : List ServiceItem) : Str :=
  strJoin ((savedServiceRecords l).map (fun s => encodeServiceLine s ++ ['\n']))

/-- Model of `nextServiceId`: like `nextCustomerId` but with an explicit empty-line
`continue` before the first `getline` on the line. -/
def nextServiceId (f : Str) : Int :=
  ((cppTokens '\n' f).foldl
    (fun maxId line =>
      if line.isEmpty then maxId
      else match cppTokens '|' line with
      | [] => maxId
      | idStr :: _ =>
        match stoi? idStr with
        | none => maxId
        | some i => if maxId < i then i else maxId)
    0) + 1

/-- The literal default catalog pushed by `ensureDefaultServices`. -/
def defaultServices : List ServiceItem :=
  [ ⟨1, "Oil Change".toList, 1200⟩,
    ⟨2, "Brake Inspection".toList, 800⟩,
    ⟨3, "Wheel Alignment".toList, 600⟩,
    ⟨4, "Car Wash".toList, 500⟩,
    ⟨5, "Engine Tune-up".toList, 2000⟩,
    ⟨6, "General Service".toList, 1500⟩ ]

/-- Model of `ensureDefaultServices`: a no-op on the file when `loadServices` is
non-empty, otherwise save the default catalog. -/
def ensureDefaultServices (f : Str) : Str :=
  if (loadServices f).isEmpty then saveServices defaultServices else f

/-! ### Discount store (Discount.cpp) -/

/-- One record of the discount store (`struct Discount`). -/
structure Discount where
  id : Int
  name : Str
  percent : ℚ
  note : Str
deriving DecidableEq, Repr

/-- The line written for one discount by `saveDiscounts`. -/
def encodeDiscountLine (d : Discount) : Str :=
  intToChars d.id ++ '|' :: (d.name ++ '|' :: (doubleToChars d.percent ++ '|' :: d.note))

/-- Decoding of one line inside the loop of `loadDiscounts`: the id must
parse with `std::stoi` and the percent with `std::stod`; either throwing
aborts the line (the note is only assigned afterwards). -/
def decodeDiscountLine (line : Str) : Option Discount :=
  match cppTokens '|' line with
  | [] => none
  | idStr :: restFields =>
    match stoi? idStr with
    | none => none
    | some i =>
      match stod? (restFields.getD 1 []) with
      | none => none
      | some p =>
        some { id := i
               name := restFields.getD 0 []
               percent := p
               note := restFields.getD 2 [] }

/-- Model of `loadDiscounts`: skip empty lines and lines whose decode throws. -/
def loadDiscounts (f : Str) : List Discount :=
  (cppTokens '\n' f).foldr
    (fun line acc =>
      if line.isEmpty then acc
      else match decodeDiscountLine line with
        | none => acc
        | some d => d :: acc)
    []

/-- The records `saveDiscounts` writes, in ascending id order. -/
def savedDiscountRecords (l : List Discount) : List Discount :=
  (buildUniqueMap Discount.id l).map Prod.snd

/-- Model of `saveDiscounts`: truncate and rewrite the whole file. -/
def saveDiscounts (l : List Discount) : Str :=
  strJoin ((savedDiscountRecords l).map (fun d => encodeDiscountLine d ++ ['\n']))

/-- The literal default catalog pushed by `ensureDefaultDiscounts`. -/
def defaultDiscounts : List Discount :=
  [ ⟨1, "New Year Offer".toList, 10, "New Year 10% off".toList⟩,
    ⟨2, "Diwali Special".toList, 15, "Festival offer".toList⟩,
    ⟨3, "Summer Sale".toList, 5, "Flat 5% summer discount".toList⟩ ]

/-- Model of `ensureDefaultDiscounts`: a no-op on the file when `loadDiscounts` is
non-empty, otherwise save the default catalog. -/
def ensureDefaultDiscounts (f : Str) : Str :=
  if (loadDiscounts f).isEmpty then saveDiscounts defaultDiscounts else f

/-! ### Service history store (Service.cpp) -/

/-- One record of the history ledger (`struct ServiceHistory`). -/
structure ServiceHistory where
  historyId : Int
  customerId : Int
  vehicleId : Int
  serviceIds : List Int
  dateTime : Str
  subtotal : ℚ
  discountId : Int
  discountPercent : ℚ
  total : ℚ
  status : Str
deriving DecidableEq, Repr

/-- The comma-joined encoding of the `serviceIds` slot written by
`saveHistory`: a separating `','` before every element except the first. -/
def encodeServiceIds : List Int → Str
  | [] => []
  | [x] => intToChars x
  | x :: y :: rest => intToChars x ++ ',' :: encodeServiceIds (y :: rest)

/-- The line written for one history entry by `saveHistory`. -/
def encodeHistoryLine (h : ServiceHistory) : Str :=
  intToChars h.historyId ++ '|' :: (intToChars h.customerId ++ '|' ::
    (intToChars h.vehicleId ++ '|' :: (encodeServiceIds h.serviceIds ++ '|' ::
      (h.dateTime ++ '|' :: (doubleToChars h.subtotal ++ '|' ::
        (intToChars h.discountId ++ '|' :: (doubleToChars h.discountPercent ++ '|' ::
          (doubleToChars h.total ++ '|' :: h.status))))))))

/-- The `serviceIds` token loop of `loadHistory`: split the slot on `','`,
skip empty tokens, and abort the whole line when `std::stoi` throws on a
non-empty token. -/
def parseServiceIds : List Str → Option (List Int)
  | [] => some []
  | t :: ts =>
    if t.isEmpty then parseServiceIds ts
    else
      match stoi? t with
      | none => none
      | some v => (parseServiceIds ts).map (fun rest => v :: rest)

/-- Decoding of one line inside the loop of `loadHistory`: every numeric
field must parse (`std::stoi` / `std::stod` throwing aborts the line); the
string fields default to empty when missing. -/
def decodeHistoryLine (line : Str) : Option ServiceHistory :=
  let fields := cppTokens '|' line
  (stoi? (fields.getD 0 [])).bind fun hid =>
  (stoi? (fields.getD 1 [])).bind fun cid =>
  (stoi? (fields.getD 2 [])).bind fun vid =>
  (parseServiceIds (cppTokens ',' (fields.getD 3 []))).bind fun sids =>
  (stod? (fields.getD 5 [])).bind fun sub =>
  (stoi? (fields.getD 6 [])).bind fun did =>
  (stod? (fields.getD 7 [])).bind fun dpct =>
  (stod? (fields.getD 8 [])).bind fun tot =>
  some { historyId := hid
         customerId := cid
         vehicleId := vid
         serviceIds := sids
         dateTime := fields.getD 4 []
         subtotal := sub
         discountId := did
         discountPercent := dpct
         total := tot
         status := fields.getD 9 [] }

/-- Model of `loadHistory`: skip empty lines and lines whose decode throws. -/
def loadHistory (f : Str) : List ServiceHistory :=
  (cppTokens '\n' f).foldr
    (fun line acc =>
      if line.isEmpty then acc
      else match decodeHistoryLine line with
        | none => acc
        | some h => h :: acc)
    []

/-- Model of `saveHistory`: truncate the file and write every record of the input, in
input order, as one `'\n'`-terminated line — there is no `std::map` here, so
no deduplication and no reordering. -/
def saveHistory (l : List ServiceHistory) : Str :=
  strJoin (l.map (fun h => encodeHistoryLine h ++ ['\n']))

/-- Model of `nextHistoryId`: same scan as `nextServiceId`, over the history file. -/
def nextHistoryId (f : Str) : Int :=
  ((cppTokens '\n' f).foldl
    (fun maxId line =>
      if line.isEmpty then maxId
      else match cppTokens '|' line with
      | [] => maxId
      | idStr :: _ =>
        match stoi? idStr with
        | none => maxId
        | some i => if maxId < i then i else maxId)
    0) + 1

/-! ### Specification-side definitions

These follow the spec's words for the save contract — "deduplicate by id
keeping first occurrence in input order; write remaining records ordered by
ascending id" — to be compared with the `std::map`-based code above. -/

/-- Keep, for each key, only the first record carrying it (spec wording:
"first occurrence in input order wins, later duplicates silently dropped"). -/
def specDedupFirst (key : α → Int) : List α → List α
  | [] => []
  | x :: rest => x :: (specDedupFirst key rest).filter (fun y => ¬ key y = key x)

/-- Insert into a list sorted by ascending key. -/
def insertByKey (key : α → Int) (x : α) : List α → List α
  | [] => [x]
  | y :: rest => if key y ≤ key x then y :: insertByKey key x rest else x :: y :: rest

/-- Sort by ascending key (insertion sort). -/
def sortByKey (key : α → Int) : List α → List α
  | [] => []
  | x :: rest => insertByKey key x (sortByKey key rest)

/-- The record sequence the spec says a save writes: first-occurrence
deduplication, then ascending id order. -/
def specSaveOrder (key : α → Int) (l : List α) : List α :=
  sortByKey key (specDedupFirst key l)

/-- Keys of an association list are strictly ascending (the `std::map`
well-formedness invariant). -/
def SortedKeys (m : List (Int × α)) : Prop :=
  m.Pairwise (fun p q => p.1 < q.1)

/-- A field value that survives the line codec unscathed: it contains
neither the field delimiter nor the line terminator. -/
abbrev CleanField (s : Str) : Prop := '|' ∉ s ∧ '\n' ∉ s

/-- An id value representable in the C++ `int` type. -/
abbrev IntRange (i : Int) : Prop := intMin ≤ i ∧ i ≤ intMax

/-- A customer record that the line codec round-trips: id in `int` range and
delimiter-free string fields.  Every record produced by `loadCustomers` is
of this shape. -/
abbrev WfCustomer (c : Customer) : Prop :=
  IntRange c.id ∧ CleanField c.name ∧ CleanField c.phone ∧ CleanField c.email

/-- The leading ids a `nextId` scan can parse out of a file, line by line. -/
def parsedLeadingIds (f : Str) : List Int :=
  (cppTokens '\n' f).filterMap (fun line =>
    match cppTokens '|' line with
    | [] => none
    | idStr :: _ => stoi? idStr)

/-- The ten decimal digit characters. -/
def digitChars : List Char := ['0', '1', '2', '3', '4', '5', '6', '7', '8', '9']

end CarService

namespace CarService

-- Sanity examples for the primitives (concrete evaluations).
example : cppTokens '|' "a|b".toList = ["a".toList, "b".toList] := by decide
example : cppTokens '|' "a|".toList = ["a".toList] := by decide
example : cppTokens '|' "".toList = [] := by decide
example : cppTokens '|' "|x".toList = [[], "x".toList] := by decide
example : stoi? "  -42xyz".toList = some (-42) := by decide
example : stoi? "abc".toList = none := by decide
example : stoi? "".toList = none := by decide
example : stoi? "2147483648".toList = none := by decide
example : intToChars (-37) = "-37".toList := by decide
example : doubleToChars 1200 = "1200".toList := by decide
example : doubleToChars (mkRat 1 2) = "0.5".toList := by decide
example : doubleToChars (mkRat (-1) 8) = "-0.125".toList := by decide
example : doubleToChars 1234567 = "1.23457e+06".toList := by decide
example : doubleToChars (mkRat 1 3) = "0.333333".toList := by decide
example : stod? "1200".toList = some 1200 := by decide
example : stod? "0.5".toList = some (mkRat 1 2) := by decide
example : stod? "1.23457e+06".toList = some 1234570 := by decide
example : stod? "".toList = none := by decide
example : stod? "abc".toList = none := by decide
example : loadCustomers "1|John|123|j@x\ninvalid|data\n".toList =
    [⟨1, "John".toList, "123".toList, "j@x".toList⟩] := by decide
example : saveCustomers [⟨2, "b".toList, [], []⟩, ⟨1, "a".toList, [], []⟩] =
    "1|a||\n2|b||\n".toList := by decide
example : saveHistory [⟨1, 1, 1, [1, 2], "2023-10-10 10:00:00".toList, 2000, -1, 0, 2000,
      "Pending".toList⟩] =
    "1|1|1|1,2|2023-10-10 10:00:00|2000|-1|0|2000|Pending\n".toList := by decide
example : loadHistory "1|1|1|1,2|2023-10-10 10:00:00|2000|-1|0|2000|Pending\n".toList =
    [⟨1, 1, 1, [1, 2], "2023-10-10 10:00:00".toList, 2000, -1, 0, 2000, "Pending".toList⟩] := by
  decide
example : saveHistory [⟨1, 1, 1, [], "d".toList, 0, -1, 0, 0, "Pending".toList⟩] =
    "1|1|1||d|0|-1|0|0|Pending\n".toList := by decide
example : loadServices (saveServices defaultServices) = defaultServices := by decide
example : loadDiscounts (saveDiscounts defaultDiscounts) = defaultDiscounts := by decide
example : loadServices "7|Brakes".toList = [] := by decide
example : nextCustomerId "-5|a|b|c".toList = 1 := by decide

/-! ### Lemmas about the getline tokenizer -/

theorem cppTokens_ne_nil {d : Char} {s : Str} (h : s ≠ []) : cppTokens d s ≠ [] := by
  cases s with
  | nil => exact absurd rfl h
  | cons c rest =>
    simp only [cppTokens]
    split
    · exact List.cons_ne_nil _ _
    · split <;> exact List.cons_ne_nil _ _

theorem mem_of_mem_cppTokens {d : Char} {s t : Str} (ht : t ∈ cppTokens d s) :
    ∀ c ∈ t, c ∈ s := by
  induction s generalizing t with
  | nil => simp [cppTokens] at ht
  | cons a rest ih =>
    intro c hc
    simp only [cppTokens] at ht
    by_cases had : a = d
    · rw [if_pos had] at ht
      rcases List.mem_cons.mp ht with h | h
      · subst h; simp at hc
      · exact List.mem_cons_of_mem _ (ih h c hc)
    · rw [if_neg had] at ht
      rcases hrest : cppTokens d rest with _ | ⟨t0, ts⟩ <;> rw [hrest] at ht
      · rcases List.mem_cons.mp ht with h | h
        · subst h
          have hca : c = a := by simpa using hc
          exact hca ▸ List.mem_cons_self _ _
        · simp at h
      · have ht0 : t0 ∈ cppTokens d rest := by rw [hrest]; exact List.mem_cons_self t0 ts
        rcases List.mem_cons.mp ht with h | h
        · subst h
          rcases List.mem_cons.mp hc with h | h
          · exact h ▸ List.mem_cons_self _ _
          · exact List.mem_cons_of_mem _ (ih ht0 c h)
        · have htm : t ∈ cppTokens d rest := by rw [hrest]; exact List.mem_cons_of_mem t0 h
          exact List.mem_cons_of_mem _ (ih htm c hc)

theorem not_delim_of_mem_cppTokens {d : Char} {s t : Str} (ht : t ∈ cppTokens d s) : d ∉ t := by
  induction s generalizing t with
  | nil => simp [cppTokens] at ht
  | cons a rest ih =>
    simp only [cppTokens] at ht
    by_cases had : a = d
    · rw [if_pos had] at ht
      rcases List.mem_cons.mp ht with h | h
      · subst h; simp
      · exact ih h
    · rw [if_neg had] at ht
      rcases hrest : cppTokens d rest with _ | ⟨t0, ts⟩ <;> rw [hrest] at ht
      · rcases List.mem_cons.mp ht with h | h
        · subst h
          simpa using fun hda => had hda.symm
        · simp at h
      · have ht0 : t0 ∈ cppTokens d rest := by rw [hrest]; exact List.mem_cons_self t0 ts
        rcases List.mem_cons.mp ht with h | h
        · subst h
          have h0 : d ∉ t0 := ih ht0
          simpa [List.mem_cons] using ⟨fun hda => had hda.symm, h0⟩
        · have htm : t ∈ cppTokens d rest := by rw [hrest]; exact List.mem_cons_of_mem t0 h
          exact ih htm

theorem cppTokens_append_delim {d : Char} {a : Str} (ha : d ∉ a) (rest : Str) :
    cppTokens d (a ++ d :: rest) = a :: cppTokens d rest := by
  induction a with
  | nil => simp [cppTokens]
  | cons c a ih =>
    have hcd : ¬ c = d := fun h => ha (h ▸ List.mem_cons_self c a)
    have ha' : d ∉ a := fun h => ha (List.mem_cons_of_mem c h)
    rw [List.cons_append, cppTokens, if_neg hcd, ih ha']

theorem cppTokens_no_delim {d : Char} {a : Str} (ha : d ∉ a) (hne : a ≠ []) :
    cppTokens d a = [a] := by
  induction a with
  | nil => exact absurd rfl hne
  | cons c a ih =>
    have hcd : ¬ c = d := fun h => ha (h ▸ List.mem_cons_self c a)
    have ha' : d ∉ a := fun h => ha (List.mem_cons_of_mem c h)
    cases a with
    | nil => simp [cppTokens, if_neg hcd]
    | cons x xs =>
      rw [cppTokens, if_neg hcd, ih ha' (List.cons_ne_nil x xs)]

theorem cppTokens_strJoin {d : Char} {ls : List Str} (h : ∀ l ∈ ls, d ∉ l) :
    cppTokens d (strJoin (ls.map (fun l => l ++ [d]))) = ls := by
  induction ls with
  | nil => rfl
  | cons l ls ih =>
    have hl : d ∉ l := h l (List.mem_cons_self l ls)
    have hls : ∀ x ∈ ls, d ∉ x := fun x hx => h x (List.mem_cons_of_mem l hx)
    have : strJoin ((l ++ [d]) :: ls.map (fun l => l ++ [d]))
        = l ++ d :: strJoin (ls.map (fun l => l ++ [d])) := by
      simp [strJoin]
    simp only [List.map_cons, this, cppTokens_append_delim hl, ih hls]

end CarService

namespace CarService

/-! ### Lemmas about decimal rendering and parsing -/

theorem mem_natCharsAux_digitChars :
    ∀ {fuel n : Nat}, n ≤ fuel → ∀ c ∈ natCharsAux fuel n, c ∈ digitChars := by
  intro fuel
  induction fuel with
  | zero => intro n _ c hc; simp [natCharsAux] at hc
  | succ fuel ih =>
    intro n hn c hc
    cases n with
    | zero => simp [natCharsAux] at hc
    | succ m =>
      simp only [natCharsAux, List.mem_append, List.mem_singleton] at hc
      rcases hc with hc | hc
      · exact ih (by omega : (m + 1) / 10 ≤ fuel) c hc
      · subst hc
        have h10 : (m + 1) % 10 < 10 := Nat.mod_lt _ (by omega)
        interval_cases h : (m + 1) % 10 <;> simp [digitChars]

theorem mem_natToChars_digitChars {n : Nat} : ∀ c ∈ natToChars n, c ∈ digitChars := by
  intro c hc
  unfold natToChars at hc
  by_cases h : n = 0
  · rw [if_pos h] at hc
    simp at hc
    simp [hc, digitChars]
  · rw [if_neg h] at hc
    exact mem_natCharsAux_digitChars (Nat.le_refl n) c hc

theorem digit_facts {c : Char} (h : c ∈ digitChars) :
    c.isDigit = true ∧ isCppSpace c = false ∧ c ≠ '-' ∧ c ≠ '+' ∧
      c ≠ '|' ∧ c ≠ '\n' ∧ c ≠ ',' ∧ c ≠ '.' ∧ c ≠ 'e' ∧ c ≠ 'E' := by
  fin_cases h <;> refine ⟨by decide, by decide, by decide, by decide, by decide,
    by decide, by decide, by decide, by decide, by decide⟩

theorem natCharsAux_foldl {fuel : Nat} :
    ∀ {n a : Nat}, n ≤ fuel →
      (natCharsAux fuel n).foldl (fun a c => a * 10 + (c.toNat - 48)) a
        = a * 10 ^ (natCharsAux fuel n).length + n := by
  induction fuel with
  | zero =>
    intro n a hn
    have : n = 0 := Nat.le_zero.mp hn
    subst this
    simp [natCharsAux]
  | succ fuel ih =>
    intro n a hn
    cases n with
    | zero => simp [natCharsAux]
    | succ m =>
      have hdiv : (m + 1) / 10 ≤ fuel := by omega
      have hch : (Char.ofNat (48 + (m + 1) % 10)).toNat = 48 + (m + 1) % 10 := by
        have h10 : (m + 1) % 10 < 10 := Nat.mod_lt _ (by omega)
        interval_cases h : (m + 1) % 10 <;> decide
      simp only [natCharsAux, List.foldl_append, List.length_append, List.foldl_cons,
        List.foldl_nil, List.length_cons, List.length_nil, ih hdiv, hch]
      have : (m + 1) % 10 + 48 - 48 = (m + 1) % 10 := by omega
      rw [pow_succ]
      ring_nf
      omega

theorem natToChars_ne_nil (n : Nat) : natToChars n ≠ [] := by
  unfold natToChars
  by_cases h : n = 0
  · simp [h]
  · rw [if_neg h]
    cases hn : n with
    | zero => exact absurd hn h
    | succ m =>
      simp [natCharsAux]

theorem digitRunVal?_natToChars (n : Nat) : digitRunVal? (natToChars n) = some n := by
  have hdig : ∀ c ∈ natToChars n, Char.isDigit c = true := fun c hc =>
    (digit_facts (mem_natToChars_digitChars c hc)).1
  have htake : (natToChars n).takeWhile Char.isDigit = natToChars n :=
    List.takeWhile_eq_self_iff.mpr hdig
  unfold digitRunVal?
  rw [htake]
  rw [if_neg (by simpa [List.isEmpty_iff] using natToChars_ne_nil n)]
  unfold natToChars
  by_cases h : n = 0
  · simp [h]
  · rw [if_neg h]
    rw [natCharsAux_foldl (Nat.le_refl n)]
    simp

end CarService

namespace CarService

theorem intToChars_head_not_space_sign (i : Int) :
    (intToChars i).dropWhile isCppSpace = intToChars i := by
  unfold intToChars
  obtain ⟨c, cs, hcons⟩ := List.exists_cons_of_ne_nil (natToChars_ne_nil i.natAbs)
  have hc : isCppSpace c = false :=
    (digit_facts (mem_natToChars_digitChars c (by rw [hcons]; exact List.mem_cons_self c cs))).2.1
  by_cases hneg : i < 0
  · rw [if_pos hneg]
    simp [List.dropWhile_cons, show isCppSpace '-' = false from by decide]
  · rw [if_neg hneg, hcons]
    simp [List.dropWhile_cons, hc]

theorem stoi?_intToChars {i : Int} (h1 : intMin ≤ i) (h2 : i ≤ intMax) :
    stoi? (intToChars i) = some i := by
  obtain ⟨c, cs, hcons⟩ := List.exists_cons_of_ne_nil (natToChars_ne_nil i.natAbs)
  have hmem := mem_natToChars_digitChars c (by rw [hcons]; exact List.mem_cons_self c cs)
  have hf := digit_facts hmem
  have hval := digitRunVal?_natToChars i.natAbs
  have hrange : ¬ ((i < intMin || intMax < i) = true) := by
    simp only [Bool.or_eq_true, decide_eq_true_eq]
    omega
  unfold stoi?
  rw [intToChars_head_not_space_sign i]
  have hval' : digitRunVal? (c :: cs) = some i.natAbs := by rw [← hcons]; exact hval
  by_cases hneg : i < 0
  · have habs : -(i.natAbs : Int) = i := by omega
    unfold intToChars
    rw [if_pos hneg, hcons]
    simp [List.headD_cons, List.tail_cons, hval', habs, hrange]
    rw [abs_of_neg hneg]
    omega
  · have habs : ((i.natAbs : Int)) = i := by omega
    unfold intToChars
    rw [if_neg hneg, hcons]
    simp [List.headD_cons, hf.2.2.1, hf.2.2.2.1, hval', habs]
    omega

end CarService

namespace CarService

/-! ### Lemmas about the sorted map built by the save functions -/

theorem mem_insertSorted {k : Int} {v : α} {m : List (Int × α)} {p : Int × α} :
    p ∈ insertSorted k v m ↔ p = (k, v) ∨ p ∈ m := by
  induction m with
  | nil => simp [insertSorted]
  | cons q rest ih =>
    obtain ⟨k2, v2⟩ := q
    simp only [insertSorted]
    split
    · simp only [List.mem_cons]
    · simp only [List.mem_cons, ih]
      tauto

theorem mapHasKey_false_iff {m : List (Int × α)} {k : Int} :
    mapHasKey m k = false ↔ ∀ p ∈ m, ¬ p.1 = k := by
  simp [mapHasKey]

theorem mapHasKey_true_iff {m : List (Int × α)} {k : Int} :
    mapHasKey m k = true ↔ ∃ p ∈ m, p.1 = k := by
  simp [mapHasKey]

theorem mapHasKey_insertSorted_iff {k k' : Int} {v : α} {m : List (Int × α)} :
    mapHasKey (insertSorted k v m) k' = true ↔ k = k' ∨ mapHasKey m k' = true := by
  simp only [mapHasKey_true_iff]
  constructor
  · rintro ⟨p, hp, hk⟩
    rcases mem_insertSorted.mp hp with rfl | hp'
    · exact Or.inl hk
    · exact Or.inr ⟨p, hp', hk⟩
  · rintro (rfl | ⟨p, hp, hk⟩)
    · exact ⟨(k, v), mem_insertSorted.mpr (Or.inl rfl), rfl⟩
    · exact ⟨p, mem_insertSorted.mpr (Or.inr hp), hk⟩

theorem sortedKeys_insertSorted {k : Int} {v : α} {m : List (Int × α)}
    (hm : SortedKeys m) (hk : mapHasKey m k = false) :
    SortedKeys (insertSorted k v m) := by
  induction m with
  | nil => simp [insertSorted, SortedKeys]
  | cons q rest ih =>
    obtain ⟨k2, v2⟩ := q
    have hpc := List.pairwise_cons.mp hm
    have hne : ¬ k2 = k := (mapHasKey_false_iff.mp hk) (k2, v2) (List.mem_cons_self _ _)
    have hkrest : mapHasKey rest k = false :=
      mapHasKey_false_iff.mpr fun p hp => (mapHasKey_false_iff.mp hk) p (List.mem_cons_of_mem _ hp)
    simp only [insertSorted]
    split
    · rename_i hlt
      refine List.pairwise_cons.mpr ⟨?_, hm⟩
      intro p hp
      rcases List.mem_cons.mp hp with rfl | hp'
      · exact hlt
      · exact lt_trans hlt (hpc.1 p hp')
    · rename_i hnlt
      have hk2k : k2 < k := by omega
      refine List.pairwise_cons.mpr ⟨?_, ih hpc.2 hkrest⟩
      intro p hp
      rcases mem_insertSorted.mp hp with rfl | hp'
      · exact hk2k
      · exact hpc.1 p hp'

theorem foldl_buildStep_mem (key : α → Int) (l : List α) :
    ∀ (m : List (Int × α)) (p : Int × α),
      p ∈ l.foldl (fun m r => if mapHasKey m (key r) then m else insertSorted (key r) r m) m ↔
        p ∈ m ∨ (mapHasKey m p.1 = false ∧
          l.find? (fun x => key x = p.1) = some p.2) := by
  induction l with
  | nil =>
    intro m p
    simp
  | cons r rest ih =>
    intro m p
    rw [List.foldl_cons]
    by_cases hK : mapHasKey m (key r) = true
    · rw [if_pos hK, ih]
      by_cases hpr : key r = p.1
      · have hKp : mapHasKey m p.1 = true := hpr ▸ hK
        simp [List.find?_cons, hpr, hKp]
      · simp [List.find?_cons, hpr]
    · have hKf : mapHasKey m (key r) = false := by
        cases hb : mapHasKey m (key r) with
        | false => rfl
        | true => exact absurd hb hK
      rw [if_neg hK, ih]
      by_cases hpr : key r = p.1
      · have hfind : List.find? (fun x => decide (key x = p.1)) (r :: rest) = some r := by
          simp [List.find?_cons, hpr]
        rw [hfind]
        constructor
        · rintro (hins | ⟨hc, _⟩)
          · rcases mem_insertSorted.mp hins with rfl | hpm
            · exact Or.inr ⟨hKf, rfl⟩
            · exact Or.inl hpm
          · have hcontra := (mapHasKey_insertSorted_iff (v := r) (m := m)).mpr (Or.inl hpr)
            rw [hcontra] at hc
            simp at hc
        · rintro (hpm | ⟨hKm, hsome⟩)
          · exact Or.inl (mem_insertSorted.mpr (Or.inr hpm))
          · have hpeq : p = (key r, r) := Prod.ext hpr.symm (Option.some.inj hsome).symm
            exact Or.inl (mem_insertSorted.mpr (Or.inl hpeq))
      · have hfind : List.find? (fun x => decide (key x = p.1)) (r :: rest)
            = List.find? (fun x => decide (key x = p.1)) rest := by
          simp [List.find?_cons, hpr]
        rw [hfind]
        have hpne : ¬ p = (key r, r) := fun h => hpr (by rw [h])
        constructor
        · rintro (hins | ⟨hc, hfind2⟩)
          · rcases mem_insertSorted.mp hins with hpeq | hpm
            · exact absurd hpeq hpne
            · exact Or.inl hpm
          · refine Or.inr ⟨?_, hfind2⟩
            cases hb : mapHasKey m p.1 with
            | false => rfl
            | true =>
              have hcontra := (mapHasKey_insertSorted_iff (k := key r) (v := r)).mpr (Or.inr hb)
              rw [hcontra] at hc
              simp at hc
        · rintro (hpm | ⟨hKm, hfind2⟩)
          · exact Or.inl (mem_insertSorted.mpr (Or.inr hpm))
          · refine Or.inr ⟨?_, hfind2⟩
            cases hb : mapHasKey (insertSorted (key r) r m) p.1 with
            | false => rfl
            | true =>
              rcases mapHasKey_insertSorted_iff.mp hb with h | h
              · exact absurd h hpr
              · rw [h] at hKm
                simp at hKm

theorem mem_buildUniqueMap {key : α → Int} {l : List α} {p : Int × α} :
    p ∈ buildUniqueMap key l ↔ l.find? (fun x => key x = p.1) = some p.2 := by
  have h := foldl_buildStep_mem key l [] p
  simpa [buildUniqueMap, mapHasKey] using h

theorem sortedKeys_buildUniqueMap (key : α → Int) (l : List α) :
    SortedKeys (buildUniqueMap key l) := by
  have : ∀ (m : List (Int × α)), SortedKeys m →
      SortedKeys (l.foldl
        (fun m r => if mapHasKey m (key r) then m else insertSorted (key r) r m) m) := by
    induction l with
    | nil => intro m hm; exact hm
    | cons r rest ih =>
      intro m hm
      rw [List.foldl_cons]
      by_cases hK : mapHasKey m (key r) = true
      · rw [if_pos hK]; exact ih m hm
      · rw [if_neg hK]
        exact ih _ (sortedKeys_insertSorted hm (Bool.eq_false_iff.mpr hK))
  exact this [] (by simp [SortedKeys])

theorem sortedKeys_ext {m1 m2 : List (Int × α)} (h1 : SortedKeys m1) (h2 : SortedKeys m2)
    (h : ∀ p, p ∈ m1 ↔ p ∈ m2) : m1 = m2 := by
  induction m1 generalizing m2 with
  | nil =>
    cases m2 with
    | nil => rfl
    | cons q t2 => exact absurd ((h q).mpr (List.mem_cons_self q t2)) (by simp)
  | cons p t1 ih =>
    cases m2 with
    | nil => exact absurd ((h p).mp (List.mem_cons_self p t1)) (by simp)
    | cons q t2 =>
      have hp1 := List.pairwise_cons.mp h1
      have hp2 := List.pairwise_cons.mp h2
      have hpq : p = q := by
        rcases List.mem_cons.mp ((h p).mp (List.mem_cons_self p t1)) with h' | h'
        · exact h'
        · rcases List.mem_cons.mp ((h q).mpr (List.mem_cons_self q t2)) with h'' | h''
          · exact h''.symm
          · have hq : q.1 < p.1 := hp2.1 p h'
            have hpp : p.1 < q.1 := hp1.1 q h''
            omega
      subst hpq
      have ht : ∀ x, x ∈ t1 ↔ x ∈ t2 := by
        intro x
        constructor
        · intro hx
          rcases List.mem_cons.mp ((h x).mp (List.mem_cons_of_mem p hx)) with h' | h'
          · subst h'
            exact absurd (hp1.1 x hx) (lt_irrefl _)
          · exact h'
        · intro hx
          rcases List.mem_cons.mp ((h x).mpr (List.mem_cons_of_mem p hx)) with h' | h'
          · subst h'
            exact absurd (hp2.1 x hx) (lt_irrefl _)
          · exact h'
      rw [ih hp1.2 hp2.2 ht]

end CarService

namespace CarService

/-! ### Lemmas about the spec-side dedup and sort -/

theorem mem_specDedupFirst {key : α → Int} {l : List α} {x : α} :
    x ∈ specDedupFirst key l ↔ l.find? (fun y => key y = key x) = some x := by
  induction l with
  | nil => simp [specDedupFirst]
  | cons a rest ih =>
    simp only [specDedupFirst, List.mem_cons, List.mem_filter, decide_not, Bool.not_eq_true',
      decide_eq_false_iff_not]
    by_cases ha : key a = key x
    · have hfind : List.find? (fun y => decide (key y = key x)) (a :: rest) = some a := by
        simp [List.find?_cons, ha]
      rw [hfind]
      constructor
      · rintro (rfl | ⟨_, hne⟩)
        · rfl
        · exact absurd ha.symm hne
      · intro h
        exact Or.inl (Option.some.inj h).symm
    · have hfind : List.find? (fun y => decide (key y = key x)) (a :: rest)
          = List.find? (fun y => decide (key y = key x)) rest := by
        simp [List.find?_cons, ha]
      rw [hfind]
      constructor
      · rintro (rfl | ⟨hx, _⟩)
        · exact absurd rfl ha
        · exact ih.mp hx
      · intro h
        refine Or.inr ⟨ih.mpr h, fun hc => ha (by rw [hc])⟩

theorem pairwise_ne_specDedupFirst (key : α → Int) (l : List α) :
    (specDedupFirst key l).Pairwise (fun a b => ¬ key a = key b) := by
  induction l with
  | nil => simp [specDedupFirst]
  | cons a rest ih =>
    simp only [specDedupFirst]
    refine List.pairwise_cons.mpr ⟨?_, ih.filter _⟩
    intro y hy
    have hne := (List.mem_filter.mp hy).2
    simp only [decide_not, Bool.not_eq_true', decide_eq_false_iff_not] at hne
    exact fun h => hne h.symm

theorem perm_insertByKey (key : α → Int) (x : α) (l : List α) :
    (insertByKey key x l).Perm (x :: l) := by
  induction l with
  | nil => exact List.Perm.refl _
  | cons y rest ih =>
    simp only [insertByKey]
    split
    · exact (ih.cons y).trans (List.Perm.swap x y rest)
    · exact List.Perm.refl _

theorem perm_sortByKey (key : α → Int) (l : List α) : (sortByKey key l).Perm l := by
  induction l with
  | nil => exact List.Perm.refl _
  | cons x rest ih =>
    exact (perm_insertByKey key x (sortByKey key rest)).trans (ih.cons x)

theorem sorted_insertByKey {key : α → Int} {x : α} {l : List α}
    (h : l.Pairwise (fun a b => key a ≤ key b)) :
    (insertByKey key x l).Pairwise (fun a b => key a ≤ key b) := by
  induction l with
  | nil => simp [insertByKey]
  | cons y rest ih =>
    have hpc := List.pairwise_cons.mp h
    simp only [insertByKey]
    split
    · rename_i hle
      refine List.pairwise_cons.mpr ⟨?_, ih hpc.2⟩
      intro z hz
      rcases List.mem_cons.mp ((perm_insertByKey key x rest).mem_iff.mp hz) with rfl | hz'
      · exact hle
      · exact hpc.1 z hz'
    · rename_i hnle
      refine List.pairwise_cons.mpr ⟨?_, h⟩
      intro z hz
      rcases List.mem_cons.mp hz with rfl | hz'
      · exact le_of_not_le hnle
      · exact le_trans (le_of_not_le hnle) (hpc.1 z hz')

theorem sorted_sortByKey (key : α → Int) (l : List α) :
    (sortByKey key l).Pairwise (fun a b => key a ≤ key b) := by
  induction l with
  | nil => simp [sortByKey]
  | cons x rest ih => exact sorted_insertByKey ih

theorem mem_specSaveOrder {key : α → Int} {l : List α} {x : α} :
    x ∈ specSaveOrder key l ↔ l.find? (fun y => key y = key x) = some x := by
  rw [specSaveOrder, (perm_sortByKey key _).mem_iff, mem_specDedupFirst]

theorem pairwise_lt_specSaveOrder (key : α → Int) (l : List α) :
    (specSaveOrder key l).Pairwise (fun a b => key a < key b) := by
  have hsymm : ∀ {a b : α}, ¬ key a = key b → ¬ key b = key a :=
    fun h hc => h hc.symm
  have hne : (specSaveOrder key l).Pairwise (fun a b => ¬ key a = key b) :=
    ((perm_sortByKey key (specDedupFirst key l)).pairwise_iff hsymm).mpr
      (pairwise_ne_specDedupFirst key l)
  have hle := sorted_sortByKey key (specDedupFirst key l)
  exact (hle.and hne).imp fun hab => lt_of_le_of_ne hab.1 hab.2

theorem buildUniqueMap_eq_spec (key : α → Int) (l : List α) :
    buildUniqueMap key l = (specSaveOrder key l).map (fun v => (key v, v)) := by
  apply sortedKeys_ext (sortedKeys_buildUniqueMap key l)
  · unfold SortedKeys
    rw [List.pairwise_map]
    exact (pairwise_lt_specSaveOrder key l).imp fun hab => hab
  · intro p
    rw [mem_buildUniqueMap]
    simp only [List.mem_map]
    constructor
    · intro hfind
      have hkey : key p.2 = p.1 := by
        have := List.find?_some hfind
        simpa using this
      refine ⟨p.2, mem_specSaveOrder.mpr (by rw [hkey]; exact hfind), ?_⟩
      exact Prod.ext hkey rfl
    · rintro ⟨v, hv, rfl⟩
      have := mem_specSaveOrder.mp hv
      simpa using this

theorem savedRecords_eq_spec (key : α → Int) (l : List α) :
    (buildUniqueMap key l).map Prod.snd = specSaveOrder key l := by
  rw [buildUniqueMap_eq_spec, List.map_map]
  have hcomp : (Prod.snd ∘ fun v => (key v, v)) = (id : α → α) := rfl
  rw [hcomp, List.map_id]

theorem specDedupFirst_eq_self {key : α → Int} {l : List α}
    (h : l.Pairwise (fun a b => ¬ key a = key b)) : specDedupFirst key l = l := by
  induction l with
  | nil => rfl
  | cons a rest ih =>
    have hpc := List.pairwise_cons.mp h
    simp only [specDedupFirst, ih hpc.2]
    have : ∀ y ∈ rest, (fun y => decide (¬ key y = key a)) y = true := by
      intro y hy
      simpa using fun hc => hpc.1 y hy hc.symm
    rw [List.filter_eq_self.mpr this]

theorem insertByKey_eq_cons {key : α → Int} {x : α} {l : List α}
    (h : ∀ y ∈ l, key x < key y) : insertByKey key x l = x :: l := by
  cases l with
  | nil => rfl
  | cons y rest =>
    simp only [insertByKey]
    rw [if_neg (not_le.mpr (h y (List.mem_cons_self y rest)))]

theorem sortByKey_eq_self {key : α → Int} {l : List α}
    (h : l.Pairwise (fun a b => key a < key b)) : sortByKey key l = l := by
  induction l with
  | nil => rfl
  | cons x rest ih =>
    have hpc := List.pairwise_cons.mp h
    simp only [sortByKey, ih hpc.2]
    exact insertByKey_eq_cons hpc.1

theorem specSaveOrder_eq_self {key : α → Int} {l : List α}
    (h : l.Pairwise (fun a b => key a < key b)) : specSaveOrder key l = l := by
  rw [specSaveOrder, specDedupFirst_eq_self (h.imp fun hab => ne_of_lt hab), sortByKey_eq_self h]

theorem specSaveOrder_idem (key : α → Int) (l : List α) :
    specSaveOrder key (specSaveOrder key l) = specSaveOrder key l :=
  specSaveOrder_eq_self (pairwise_lt_specSaveOrder key l)

end CarService

namespace CarService

/-! ### Round-trip lemmas for the customer store -/

theorem mem_intToChars {i : Int} {c : Char} (h : c ∈ intToChars i) :
    c = '-' ∨ c ∈ digitChars := by
  unfold intToChars at h
  by_cases hneg : i < 0
  · rw [if_pos hneg] at h
    rcases List.mem_cons.mp h with rfl | h'
    · exact Or.inl rfl
    · exact Or.inr (mem_natToChars_digitChars c h')
  · rw [if_neg hneg] at h
    exact Or.inr (mem_natToChars_digitChars c h)

theorem intToChars_no_pipe (i : Int) : '|' ∉ intToChars i := by
  intro h
  rcases mem_intToChars h with h' | h'
  · exact absurd h' (by decide)
  · exact absurd h' (by decide)

theorem intToChars_no_newline (i : Int) : '\n' ∉ intToChars i := by
  intro h
  rcases mem_intToChars h with h' | h'
  · exact absurd h' (by decide)
  · exact absurd h' (by decide)

theorem intToChars_no_comma (i : Int) : ',' ∉ intToChars i := by
  intro h
  rcases mem_intToChars h with h' | h'
  · exact absurd h' (by decide)
  · exact absurd h' (by decide)

theorem stoi?_range {s : Str} {i : Int} (h : stoi? s = some i) : IntRange i := by
  unfold stoi? at h
  simp only at h
  split at h
  · exact absurd h (by simp)
  · rename_i v heq
    split at h
    · exact absurd h (by simp)
    · rename_i hcond
      have hv : v = i := Option.some.inj h
      subst hv
      simp only [Bool.or_eq_true, decide_eq_true_eq, not_or] at hcond
      exact ⟨by omega, by omega⟩

theorem encodeCustomerLine_ne_nil (c : Customer) : encodeCustomerLine c ≠ [] := by
  unfold encodeCustomerLine
  intro h
  have := List.append_eq_nil.mp h
  simp at this

theorem encodeCustomerLine_no_newline {c : Customer} (h : WfCustomer c) :
    '\n' ∉ encodeCustomerLine c := by
  obtain ⟨_, ⟨_, hn⟩, ⟨_, hp⟩, ⟨_, he⟩⟩ := h
  unfold encodeCustomerLine
  intro hmem
  simp only [List.mem_append, List.mem_cons] at hmem
  rcases hmem with h' | h' | h' | h' | h' | h' | h'
  · exact intToChars_no_newline c.id h'
  · exact absurd h' (by decide)
  · exact hn h'
  · exact absurd h' (by decide)
  · exact hp h'
  · exact absurd h' (by decide)
  · exact he h'

theorem decodeCustomerLine_encode {c : Customer} (h : WfCustomer c) :
    decodeCustomerLine (encodeCustomerLine c) = some c := by
  obtain ⟨cid, cname, cphone, cemail⟩ := c
  obtain ⟨⟨h1, h2⟩, ⟨hn1, _⟩, ⟨hp1, _⟩, ⟨he1, _⟩⟩ := h
  have htok : cppTokens '|' (encodeCustomerLine ⟨cid, cname, cphone, cemail⟩)
      = intToChars cid :: cname :: cphone :: cppTokens '|' cemail := by
    unfold encodeCustomerLine
    rw [cppTokens_append_delim (intToChars_no_pipe cid),
      cppTokens_append_delim hn1, cppTokens_append_delim hp1]
  unfold decodeCustomerLine
  rw [htok]
  by_cases he : cemail = []
  · subst he
    simp only [cppTokens, stoi?_intToChars h1 h2]
    rfl
  · rw [cppTokens_no_delim he1 he]
    simp only [stoi?_intToChars h1 h2]
    rfl

theorem loadCustomers_foldr {l : List Customer} (h : ∀ c ∈ l, WfCustomer c) :
    (l.map encodeCustomerLine).foldr
      (fun line acc =>
        if line.isEmpty then acc
        else match decodeCustomerLine line with
          | none => acc
          | some c => c :: acc)
      [] = l := by
  induction l with
  | nil => rfl
  | cons c rest ih =>
    have hc := h c (List.mem_cons_self c rest)
    have hrest := fun x hx => h x (List.mem_cons_of_mem c hx)
    simp only [List.map_cons, List.foldr_cons, ih hrest]
    rw [if_neg (by simpa [List.isEmpty_iff] using encodeCustomerLine_ne_nil c),
      decodeCustomerLine_encode hc]

theorem loadCustomers_encoded {l : List Customer} (h : ∀ c ∈ l, WfCustomer c) :
    loadCustomers (strJoin (l.map (fun c => encodeCustomerLine c ++ ['\n']))) = l := by
  have hmapmap : l.map (fun c => encodeCustomerLine c ++ ['\n'])
      = (l.map encodeCustomerLine).map (fun s => s ++ ['\n']) := by
    rw [List.map_map]
    rfl
  have hlines : cppTokens '\n' (strJoin (l.map (fun c => encodeCustomerLine c ++ ['\n'])))
      = l.map encodeCustomerLine := by
    rw [hmapmap]
    apply cppTokens_strJoin
    intro x hx
    rcases List.mem_map.mp hx with ⟨c, hc, rfl⟩
    exact encodeCustomerLine_no_newline (h c hc)
  unfold loadCustomers
  rw [hlines]
  exact loadCustomers_foldr h

theorem mem_savedCustomerRecords {l : List Customer} {c : Customer}
    (hc : c ∈ savedCustomerRecords l) : c ∈ l := by
  rw [savedCustomerRecords, savedRecords_eq_spec] at hc
  exact List.mem_of_find?_eq_some (mem_specSaveOrder.mp hc)

theorem loadCustomers_saveCustomers {l : List Customer} (h : ∀ c ∈ l, WfCustomer c) :
    loadCustomers (saveCustomers l) = savedCustomerRecords l := by
  unfold saveCustomers
  exact loadCustomers_encoded fun c hc => h c (mem_savedCustomerRecords hc)

end CarService

namespace CarService

theorem getD_mem_or_nil (l : List Str) (k : Nat) : l.getD k [] ∈ l ∨ l.getD k [] = [] := by
  by_cases hk : k < l.length
  · left
    rw [List.getD_eq_getElem l [] hk]
    exact List.getElem_mem hk
  · right
    exact List.getD_eq_default l [] (le_of_not_lt hk)

theorem cleanField_nil : CleanField [] := ⟨by simp, by simp⟩

theorem cleanField_of_token {line t : Str} (hnl : '\n' ∉ line) (ht : t ∈ cppTokens '|' line) :
    CleanField t :=
  ⟨not_delim_of_mem_cppTokens ht, fun hc => hnl (mem_of_mem_cppTokens ht '\n' hc)⟩

theorem cleanField_getD {line : Str} (hnl : '\n' ∉ line) (restFields : List Str)
    (hsub : ∀ t ∈ restFields, t ∈ cppTokens '|' line) (k : Nat) :
    CleanField (restFields.getD k []) := by
  rcases getD_mem_or_nil restFields k with h | h
  · exact cleanField_of_token hnl (hsub _ h)
  · rw [h]
    exact cleanField_nil

theorem decodeCustomerLine_wf {line : Str} (hnl : '\n' ∉ line) {c : Customer}
    (h : decodeCustomerLine line = some c) : WfCustomer c := by
  unfold decodeCustomerLine at h
  split at h
  · exact absurd h (by simp)
  · rename_i idStr restFields heq
    split at h
    · exact absurd h (by simp)
    · rename_i i hstoi
      have hsub : ∀ t ∈ restFields, t ∈ cppTokens '|' line := by
        intro t ht
        rw [heq]
        exact List.mem_cons_of_mem _ ht
      have hc := (Option.some.inj h).symm
      subst hc
      exact ⟨stoi?_range hstoi, cleanField_getD hnl restFields hsub 0,
        cleanField_getD hnl restFields hsub 1, cleanField_getD hnl restFields hsub 2⟩

theorem mem_load_foldr {lines : List Str} {c : Customer}
    (h : c ∈ lines.foldr
      (fun line acc =>
        if line.isEmpty then acc
        else match decodeCustomerLine line with
          | none => acc
          | some c => c :: acc)
      []) :
    ∃ line ∈ lines, decodeCustomerLine line = some c := by
  induction lines with
  | nil => simp at h
  | cons line rest ih =>
    simp only [List.foldr_cons] at h
    by_cases he : line.isEmpty
    · rw [if_pos he] at h
      rcases ih h with ⟨l, hl, hd⟩
      exact ⟨l, List.mem_cons_of_mem _ hl, hd⟩
    · rw [if_neg he] at h
      rcases hd : decodeCustomerLine line with _ | c2 <;> rw [hd] at h
      · rcases ih h with ⟨l, hl, hd2⟩
        exact ⟨l, List.mem_cons_of_mem _ hl, hd2⟩
      · rcases List.mem_cons.mp h with rfl | h'
        · exact ⟨line, List.mem_cons_self _ _, hd⟩
        · rcases ih h' with ⟨l, hl, hd2⟩
          exact ⟨l, List.mem_cons_of_mem _ hl, hd2⟩

theorem loadCustomers_wf {f : Str} : ∀ c ∈ loadCustomers f, WfCustomer c := by
  intro c hc
  unfold loadCustomers at hc
  rcases mem_load_foldr hc with ⟨line, hline, hdec⟩
  have hnl : '\n' ∉ line := not_delim_of_mem_cppTokens hline
  exact decodeCustomerLine_wf hnl hdec

/-- The customer records actually stored in a file: what `loadCustomers`
returns after a `saveCustomers l` — the `std::map` values, which equal the
spec's dedup-then-sort sequence. -/
theorem loadCustomers_after_save {l : List Customer} (h : ∀ c ∈ l, WfCustomer c) :
    loadCustomers (saveCustomers l) = specSaveOrder Customer.id l := by
  rw [loadCustomers_saveCustomers h, savedCustomerRecords, savedRecords_eq_spec]

theorem savedCustomerRecords_pairwise_lt (l : List Customer) :
    (savedCustomerRecords l).Pairwise (fun a b => a.id < b.id) := by
  rw [savedCustomerRecords, savedRecords_eq_spec]
  exact pairwise_lt_specSaveOrder Customer.id l

end CarService

namespace CarService

/-! ### Lemmas about the history line codec -/

theorem intToChars_ne_nil (i : Int) : intToChars i ≠ [] := by
  unfold intToChars
  by_cases hneg : i < 0
  · rw [if_pos hneg]
    exact List.cons_ne_nil _ _
  · rw [if_neg hneg]
    exact natToChars_ne_nil _

theorem mem_encodeServiceIds {l : List Int} {c : Char} (h : c ∈ encodeServiceIds l) :
    c = ',' ∨ c = '-' ∨ c ∈ digitChars := by
  induction l with
  | nil => simp [encodeServiceIds] at h
  | cons x rest ih =>
    cases rest with
    | nil =>
      simp only [encodeServiceIds] at h
      rcases mem_intToChars h with h' | h'
      · exact Or.inr (Or.inl h')
      · exact Or.inr (Or.inr h')
    | cons y t =>
      simp only [encodeServiceIds, List.mem_append, List.mem_cons] at h
      rcases h with h' | h' | h'
      · rcases mem_intToChars h' with h'' | h''
        · exact Or.inr (Or.inl h'')
        · exact Or.inr (Or.inr h'')
      · exact Or.inl h'
      · exact ih h'

theorem encodeServiceIds_no_pipe (l : List Int) : '|' ∉ encodeServiceIds l := by
  intro h
  rcases mem_encodeServiceIds h with h' | h' | h'
  · exact absurd h' (by decide)
  · exact absurd h' (by decide)
  · exact absurd h' (by decide)

theorem encodeServiceIds_no_newline (l : List Int) : '\n' ∉ encodeServiceIds l := by
  intro h
  rcases mem_encodeServiceIds h with h' | h' | h'
  · exact absurd h' (by decide)
  · exact absurd h' (by decide)
  · exact absurd h' (by decide)

theorem stoi?_intToChars_of_range {i : Int} (h : IntRange i) : stoi? (intToChars i) = some i :=
  stoi?_intToChars h.1 h.2

theorem parseServiceIds_encode {l : List Int} (h : ∀ x ∈ l, IntRange x) :
    parseServiceIds (cppTokens ',' (encodeServiceIds l)) = some l := by
  induction l with
  | nil => rfl
  | cons x rest ih =>
    have hx := h x (List.mem_cons_self x rest)
    have hrest := fun y hy => h y (List.mem_cons_of_mem x hy)
    have hnocomma : ',' ∉ intToChars x := intToChars_no_comma x
    cases rest with
    | nil =>
      simp only [encodeServiceIds]
      rw [cppTokens_no_delim hnocomma (intToChars_ne_nil x)]
      unfold parseServiceIds
      rw [if_neg (by simpa [List.isEmpty_iff] using intToChars_ne_nil x),
        stoi?_intToChars_of_range hx]
      rfl
    | cons y t =>
      simp only [encodeServiceIds]
      rw [cppTokens_append_delim hnocomma]
      unfold parseServiceIds
      rw [if_neg (by simpa [List.isEmpty_iff] using intToChars_ne_nil x),
        stoi?_intToChars_of_range hx]
      have ih2 := ih hrest
      simp only [encodeServiceIds] at ih2
      rw [ih2]
      rfl

end CarService

namespace CarService

/-! ### Round-trip lemmas for the history store (concrete entry, arbitrary id list) -/

theorem encodeHistoryLine_test_no_newline (sids : List Int) :
    '\n' ∉ encodeHistoryLine ⟨1, 1, 1, sids, "2023-10-10 10:00:00".toList, 2000, -1, 0, 2000,
      "Pending".toList⟩ := by
  intro hmem
  unfold encodeHistoryLine at hmem
  simp only [List.mem_append, List.mem_cons] at hmem
  rcases hmem with h|h|h|h|h|h|h|h|h|h|h|h|h|h|h|h|h|h|h <;>
    first
      | exact encodeServiceIds_no_newline sids h
      | exact absurd h (by decide)

theorem cppTokens_encodeHistoryLine_test (sids : List Int) :
    cppTokens '|' (encodeHistoryLine ⟨1, 1, 1, sids, "2023-10-10 10:00:00".toList, 2000, -1, 0,
      2000, "Pending".toList⟩)
      = ['1'] :: ['1'] :: ['1'] :: encodeServiceIds sids ::
        ["2023-10-10 10:00:00".toList, "2000".toList, "-1".toList, "0".toList, "2000".toList,
          "Pending".toList] := by
  unfold encodeHistoryLine
  dsimp only
  rw [show intToChars (1 : Int) = ['1'] from by decide]
  rw [cppTokens_append_delim (by decide), cppTokens_append_delim (by decide),
    cppTokens_append_delim (by decide),
    cppTokens_append_delim (encodeServiceIds_no_pipe sids)]
  congr 4

theorem decodeHistoryLine_test {sids : List Int} (h : ∀ x ∈ sids, IntRange x) :
    decodeHistoryLine (encodeHistoryLine ⟨1, 1, 1, sids, "2023-10-10 10:00:00".toList, 2000, -1,
      0, 2000, "Pending".toList⟩)
      = some ⟨1, 1, 1, sids, "2023-10-10 10:00:00".toList, 2000, -1, 0, 2000,
          "Pending".toList⟩ := by
  unfold decodeHistoryLine
  rw [cppTokens_encodeHistoryLine_test]
  simp only [List.getD_cons_zero, List.getD_cons_succ,
    show stoi? ['1'] = some (1 : Int) from by decide,
    parseServiceIds_encode h,
    show stod? "2000".toList = some (2000 : ℚ) from by decide,
    show stoi? "-1".toList = some (-1 : Int) from by decide,
    show stod? "0".toList = some (0 : ℚ) from by decide,
    Option.some_bind]

theorem encodeHistoryLine_test_not_empty (sids : List Int) :
    ¬ (encodeHistoryLine ⟨1, 1, 1, sids, "2023-10-10 10:00:00".toList, 2000, -1, 0, 2000,
      "Pending".toList⟩).isEmpty = true := by
  unfold encodeHistoryLine
  dsimp only
  rw [show intToChars (1 : Int) = ['1'] from by decide]
  simp

theorem loadHistory_saveHistory_test {sids : List Int} (h : ∀ x ∈ sids, IntRange x) :
    loadHistory (saveHistory [⟨1, 1, 1, sids, "2023-10-10 10:00:00".toList, 2000, -1, 0, 2000,
      "Pending".toList⟩])
      = [⟨1, 1, 1, sids, "2023-10-10 10:00:00".toList, 2000, -1, 0, 2000,
          "Pending".toList⟩] := by
  have hlines : cppTokens '\n' (saveHistory [⟨1, 1, 1, sids, "2023-10-10 10:00:00".toList, 2000,
      -1, 0, 2000, "Pending".toList⟩])
      = [encodeHistoryLine ⟨1, 1, 1, sids, "2023-10-10 10:00:00".toList, 2000, -1, 0, 2000,
          "Pending".toList⟩] := by
    have h1 : saveHistory [⟨1, 1, 1, sids, "2023-10-10 10:00:00".toList, 2000, -1, 0, 2000,
        "Pending".toList⟩]
        = encodeHistoryLine ⟨1, 1, 1, sids, "2023-10-10 10:00:00".toList, 2000, -1, 0, 2000,
            "Pending".toList⟩ ++ '\n' :: [] := by
      unfold saveHistory
      simp [strJoin]
    rw [h1, cppTokens_append_delim (encodeHistoryLine_test_no_newline sids)]
    rfl
  unfold loadHistory
  rw [hlines]
  simp only [List.foldr_cons, List.foldr_nil]
  rw [if_neg (encodeHistoryLine_test_not_empty sids), decodeHistoryLine_test h]

end CarService

namespace CarService

/-! ### Lemmas about the id scan -/

theorem nextCustomerId_eq (f : Str) :
    nextCustomerId f = (parsedLeadingIds f).foldl max 0 + 1 := by
  unfold nextCustomerId parsedLeadingIds
  congr 1
  have key : ∀ (lines : List Str) (a : Int),
      lines.foldl (fun maxId line =>
        match cppTokens '|' line with
        | [] => maxId
        | idStr :: _ =>
          match stoi? idStr with
          | none => maxId
          | some i => if maxId < i then i else maxId) a
      = (lines.filterMap (fun line =>
          match cppTokens '|' line with
          | [] => none
          | idStr :: _ => stoi? idStr)).foldl max a := by
    intro lines
    induction lines with
    | nil => intro a; rfl
    | cons line rest ih =>
      intro a
      simp only [List.foldl_cons, List.filterMap_cons]
      rcases htok : cppTokens '|' line with _ | ⟨idStr, ts⟩
      · simp only [htok]
        exact ih a
      · rcases hsto : stoi? idStr with _ | i
        · simp only [htok, hsto]
          exact ih a
        · simp only [htok, hsto]
          have hmax : (if a < i then i else a) = max a i := by
            split <;> omega
          rw [hmax]
          exact ih (max a i)
  exact key (cppTokens '\n' f) 0

theorem cppTokens_encodeCustomerLine {c : Customer} (hn : '|' ∉ c.name) (hp : '|' ∉ c.phone) :
    cppTokens '|' (encodeCustomerLine c)
      = intToChars c.id :: c.name :: c.phone :: cppTokens '|' c.email := by
  unfold encodeCustomerLine
  rw [cppTokens_append_delim (intToChars_no_pipe c.id), cppTokens_append_delim hn,
    cppTokens_append_delim hp]

theorem filterMap_leadingIds_encoded {rs : List Customer} (h : ∀ c ∈ rs, WfCustomer c) :
    (rs.map encodeCustomerLine).filterMap (fun line =>
      match cppTokens '|' line with
      | [] => none
      | idStr :: _ => stoi? idStr) = rs.map Customer.id := by
  induction rs with
  | nil => rfl
  | cons c rest ih =>
    have hc := h c (List.mem_cons_self c rest)
    have hr := fun x hx => h x (List.mem_cons_of_mem c hx)
    simp only [List.map_cons, List.filterMap_cons]
    rw [cppTokens_encodeCustomerLine hc.2.1.1 hc.2.2.1.1]
    simp only [stoi?_intToChars hc.1.1 hc.1.2]
    rw [ih hr]

theorem parsedLeadingIds_saveCustomers {l : List Customer} (h : ∀ c ∈ l, WfCustomer c) :
    parsedLeadingIds (saveCustomers l) = (savedCustomerRecords l).map Customer.id := by
  unfold parsedLeadingIds
  have hlines : cppTokens '\n' (saveCustomers l)
      = (savedCustomerRecords l).map encodeCustomerLine := by
    unfold saveCustomers
    rw [show (savedCustomerRecords l).map (fun c => encodeCustomerLine c ++ ['\n'])
        = ((savedCustomerRecords l).map encodeCustomerLine).map (fun s => s ++ ['\n']) by
      rw [List.map_map]; rfl]
    apply cppTokens_strJoin
    intro x hx
    rcases List.mem_map.mp hx with ⟨c, hcmem, rfl⟩
    exact encodeCustomerLine_no_newline (h c (mem_savedCustomerRecords hcmem))
  rw [hlines]
  exact filterMap_leadingIds_encoded fun c hc => h c (mem_savedCustomerRecords hc)

theorem foldl_max_eq {xs : List Int} {k : Int} (hmem : k ∈ xs) (hall : ∀ x ∈ xs, x ≤ k)
    (h0 : 0 ≤ k) : xs.foldl max 0 = k := by
  suffices h : ∀ (ys : List Int) (a : Int), (∀ x ∈ ys, x ≤ k) → a ≤ k → (k ∈ ys ∨ a = k) →
      ys.foldl max a = k from h xs 0 hall h0 (Or.inl hmem)
  intro ys
  induction ys with
  | nil =>
    intro a _ _ hor
    rcases hor with h' | h'
    · simp at h'
    · simpa using h'
  | cons x rest ih =>
    intro a hall2 ha hor
    rw [List.foldl_cons]
    apply ih
    · intro y hy
      exact hall2 y (List.mem_cons_of_mem _ hy)
    · have := hall2 x (List.mem_cons_self _ _)
      omega
    · rcases hor with hk | hk
      · rcases List.mem_cons.mp hk with rfl | hk2
        · right
          omega
        · left
          exact hk2
      · right
        have := hall2 x (List.mem_cons_self _ _)
        omega

theorem exists_saved_id {l : List Customer} {k : Int} (h : ∃ c ∈ l, c.id = k) :
    ∃ c ∈ savedCustomerRecords l, c.id = k := by
  obtain ⟨c, hc, rfl⟩ := h
  have hf : (l.find? (fun x => decide (x.id = c.id))).isSome := by
    rw [List.find?_isSome]
    exact ⟨c, hc, by simp⟩
  obtain ⟨c0, hc0⟩ := Option.isSome_iff_exists.mp hf
  have hid : c0.id = c.id := by simpa using List.find?_some hc0
  refine ⟨c0, ?_, hid⟩
  rw [savedCustomerRecords, savedRecords_eq_spec, mem_specSaveOrder, hid]
  exact hc0

end CarService

namespace CarService

/-! ### Single-line load lemmas (missing trailing fields) -/

theorem single_line_no_newline {i : Int} {name : Str} (h3 : '\n' ∉ name) :
    '\n' ∉ intToChars i ++ '|' :: name := by
  intro hmem
  rcases List.mem_append.mp hmem with hm | hm
  · exact intToChars_no_newline i hm
  · rcases List.mem_cons.mp hm with hm | hm
    · exact absurd hm (by decide)
    · exact h3 hm

theorem single_line_ne_nil (i : Int) (name : Str) : intToChars i ++ '|' :: name ≠ [] := by
  intro hc
  rcases List.append_eq_nil.mp hc with ⟨_, h⟩
  simp at h

theorem loadCustomers_single {i : Int} {name : Str} (h : IntRange i)
    (h2 : '|' ∉ name) (h3 : '\n' ∉ name) :
    loadCustomers (intToChars i ++ '|' :: name) = [⟨i, name, [], []⟩] := by
  unfold loadCustomers
  rw [cppTokens_no_delim (single_line_no_newline h3) (single_line_ne_nil i name)]
  simp only [List.foldr_cons, List.foldr_nil]
  rw [if_neg (by simpa [List.isEmpty_iff] using single_line_ne_nil i name)]
  have hdec : decodeCustomerLine (intToChars i ++ '|' :: name) = some ⟨i, name, [], []⟩ := by
    unfold decodeCustomerLine
    rw [cppTokens_append_delim (intToChars_no_pipe i)]
    by_cases hn : name = []
    · subst hn
      rw [show cppTokens '|' ([] : Str) = [] from rfl]
      simp only [stoi?_intToChars h.1 h.2]
      rfl
    · rw [cppTokens_no_delim h2 hn]
      simp only [stoi?_intToChars h.1 h.2]
      rfl
  rw [hdec]

theorem loadVehicles_single {i cid : Int} (hi : IntRange i) (hc : IntRange cid) :
    loadVehicles (intToChars i ++ '|' :: intToChars cid) = [⟨i, cid, [], [], []⟩] := by
  unfold loadVehicles
  rw [cppTokens_no_delim (single_line_no_newline (intToChars_no_newline cid))
    (single_line_ne_nil i (intToChars cid))]
  simp only [List.foldr_cons, List.foldr_nil]
  rw [if_neg (by simpa [List.isEmpty_iff] using single_line_ne_nil i (intToChars cid))]
  have hdec : decodeVehicleLine (intToChars i ++ '|' :: intToChars cid)
      = some ⟨i, cid, [], [], []⟩ := by
    unfold decodeVehicleLine
    rw [cppTokens_append_delim (intToChars_no_pipe i),
      cppTokens_no_delim (intToChars_no_pipe cid) (intToChars_ne_nil cid)]
    simp only [stoi?_intToChars hi.1 hi.2, List.getD_cons_zero, List.getD_cons_succ,
      stoi?_intToChars hc.1 hc.2]
    rfl
  rw [hdec]

theorem loadServices_single_missing_price {i : Int} {name : Str} (h : IntRange i)
    (h2 : '|' ∉ name) (h3 : '\n' ∉ name) :
    loadServices (intToChars i ++ '|' :: name) = [] := by
  unfold loadServices
  rw [cppTokens_no_delim (single_line_no_newline h3) (single_line_ne_nil i name)]
  simp only [List.foldr_cons, List.foldr_nil]
  rw [if_neg (by simpa [List.isEmpty_iff] using single_line_ne_nil i name)]
  have hdec : decodeServiceLine (intToChars i ++ '|' :: name) = none := by
    unfold decodeServiceLine
    rw [cppTokens_append_delim (intToChars_no_pipe i)]
    by_cases hn : name = []
    · subst hn
      rw [show cppTokens '|' ([] : Str) = [] from rfl]
      simp only [stoi?_intToChars h.1 h.2]
      rfl
    · rw [cppTokens_no_delim h2 hn]
      simp only [stoi?_intToChars h.1 h.2]
      rfl
  rw [hdec]

theorem loadDiscounts_single_missing_percent {i : Int} {name : Str} (h : IntRange i)
    (h2 : '|' ∉ name) (h3 : '\n' ∉ name) :
    loadDiscounts (intToChars i ++ '|' :: name) = [] := by
  unfold loadDiscounts
  rw [cppTokens_no_delim (single_line_no_newline h3) (single_line_ne_nil i name)]
  simp only [List.foldr_cons, List.foldr_nil]
  rw [if_neg (by simpa [List.isEmpty_iff] using single_line_ne_nil i name)]
  have hdec : decodeDiscountLine (intToChars i ++ '|' :: name) = none := by
    unfold decodeDiscountLine
    rw [cppTokens_append_delim (intToChars_no_pipe i)]
    by_cases hn : name = []
    · subst hn
      rw [show cppTokens '|' ([] : Str) = [] from rfl]
      simp only [stoi?_intToChars h.1 h.2]
      rfl
    · rw [cppTokens_no_delim h2 hn]
      simp only [stoi?_intToChars h.1 h.2]
      rfl
  rw [hdec]

end CarService

namespace CarService

/-! ### Generic fold bound -/

theorem foldl_ge_init {β : Type _} {g : Int → β → Int} (hg : ∀ a x, a ≤ g a x) :
    ∀ (xs : List β) (a : Int), a ≤ xs.foldl g a := by
  intro xs
  induction xs with
  | nil => intro a; exact le_refl a
  | cons x rest ih =>
    intro a
    exact le_trans (hg a x) (ih (g a x))

/-! ### Claim theorems -/

/-- C1 counterexample: `saveHistory` does not deduplicate by `historyId`.
Saving two records that share `historyId = 1` persists both (the file holds
two lines and `loadHistory` returns both records), while the claim's save
contract would keep only the first. -/
theorem claim_C1_counterexample :
    loadHistory (saveHistory
      [⟨1, 1, 1, [1], "d1".toList, 100, -1, 0, 100, "Pending".toList⟩,
       ⟨1, 2, 2, [2], "d2".toList, 200, -1, 0, 200, "Completed".toList⟩])
      = [⟨1, 1, 1, [1], "d1".toList, 100, -1, 0, 100, "Pending".toList⟩,
         ⟨1, 2, 2, [2], "d2".toList, 200, -1, 0, 200, "Completed".toList⟩] := by decide

/-- C1 (amended): `saveHistory`, unlike the other four stores, performs no
deduplication and no reordering — it writes one encoded line per input
record, in input order (stated for records whose encoded line contains no
newline, since an embedded newline would split a record across lines). -/
theorem claim_C1 (l : List ServiceHistory) (h : ∀ r ∈ l, '\n' ∉ encodeHistoryLine r) :
    cppTokens '\n' (saveHistory l) = l.map encodeHistoryLine := by
  unfold saveHistory
  rw [show l.map (fun h => encodeHistoryLine h ++ ['\n'])
      = (l.map encodeHistoryLine).map (fun s => s ++ ['\n']) by rw [List.map_map]; rfl]
  apply cppTokens_strJoin
  intro x hx
  rcases List.mem_map.mp hx with ⟨r, hr, rfl⟩
  exact h r hr

/-- C1 witness: two records with descending ids are written in input order,
one line each. -/
theorem claim_C1_witness :
    cppTokens '\n' (saveHistory
      [⟨2, 1, 1, [], "d".toList, 0, -1, 0, 0, "Pending".toList⟩,
       ⟨1, 1, 1, [], "d".toList, 0, -1, 0, 0, "Pending".toList⟩])
      = [⟨2, 1, 1, [], "d".toList, 0, -1, 0, 0, ("Pending".toList : Str)⟩,
         ⟨1, 1, 1, [], "d".toList, 0, -1, 0, 0, "Pending".toList⟩].map encodeHistoryLine :=
  claim_C1 _ (by decide)

/-- C2 counterexample: on a file whose only parseable id is `-5`,
`nextCustomerId` returns `1`, not `-5 + 1 = -4` — the scan's running maximum
starts at `0`, so "max id present plus 1" fails for negative-id files. -/
theorem claim_C2_counterexample :
    loadCustomers "-5|a|b|c\n".toList = [⟨-5, "a".toList, "b".toList, "c".toList⟩] ∧
    nextCustomerId "-5|a|b|c\n".toList = 1 ∧ (1 : Int) ≠ -5 + 1 :=
  ⟨by decide, by decide, by decide⟩

/-- C2 (amended): `nextCustomerId` returns one plus the maximum of `0` and
all parseable leading ids (so it is the max id plus 1 only when that max is
nonnegative, and `1` on an empty/missing/unparseable file); after saving
well-formed records whose ids are bounded by a nonnegative `k` attained by
some record, it returns `k + 1`. -/
theorem claim_C2 :
    (∀ f : Str, nextCustomerId f = (parsedLeadingIds f).foldl max 0 + 1) ∧
    (∀ (l : List Customer) (k : Int), (∀ c ∈ l, WfCustomer c) → (∃ c ∈ l, c.id = k) →
      (∀ c ∈ l, c.id ≤ k) → 0 ≤ k → nextCustomerId (saveCustomers l) = k + 1) := by
  constructor
  · exact nextCustomerId_eq
  · intro l k hwf hex hall h0
    rw [nextCustomerId_eq, parsedLeadingIds_saveCustomers hwf]
    congr 1
    apply foldl_max_eq
    · obtain ⟨c, hc, hid⟩ := exists_saved_id hex
      exact hid ▸ List.mem_map_of_mem Customer.id hc
    · intro x hx
      rcases List.mem_map.mp hx with ⟨c, hc, rfl⟩
      exact hall c (mem_savedCustomerRecords hc)
    · exact h0

/-- C2 witness: saving records with ids 3 and 1 yields next id 4. -/
theorem claim_C2_witness :
    nextCustomerId (saveCustomers [⟨3, "a".toList, [], []⟩, ⟨1, "b".toList, [], []⟩]) = 3 + 1 :=
  claim_C2.2 [⟨3, "a".toList, [], []⟩, ⟨1, "b".toList, [], []⟩] 3 (by decide) (by decide)
    (by decide) (by decide)

/-- C3: for each of the four entity stores, the records a save writes are
exactly the spec's sequence — deduplicate by id keeping the first occurrence
in input order, then order by ascending id; and the concrete John/Jane
duplicate-id example persists only the first record. -/
theorem claim_C3 :
    (∀ l : List Customer, savedCustomerRecords l = specSaveOrder Customer.id l) ∧
    (∀ l : List Vehicle, savedVehicleRecords l = specSaveOrder Vehicle.id l) ∧
    (∀ l : List ServiceItem, savedServiceRecords l = specSaveOrder ServiceItem.id l) ∧
    (∀ l : List Discount, savedDiscountRecords l = specSaveOrder Discount.id l) ∧
    loadCustomers (saveCustomers [⟨1, "John".toList, [], []⟩, ⟨1, "Jane".toList, [], []⟩])
      = [⟨1, "John".toList, [], []⟩] :=
  ⟨fun l => savedRecords_eq_spec Customer.id l, fun l => savedRecords_eq_spec Vehicle.id l,
   fun l => savedRecords_eq_spec ServiceItem.id l, fun l => savedRecords_eq_spec Discount.id l,
   by decide⟩

/-- C4: for every customer-store file state, `saveAll(loadAll())` is
idempotent — loading after the save yields the canonical dedup-then-sort
sequence, its ids are strictly ascending, and repeating the round trip
leaves the file content unchanged. -/
theorem claim_C4 (f : Str) :
    loadCustomers (saveCustomers (loadCustomers f))
      = specSaveOrder Customer.id (loadCustomers f) ∧
    (loadCustomers (saveCustomers (loadCustomers f))).Pairwise (fun a b => a.id < b.id) ∧
    saveCustomers (loadCustomers (saveCustomers (loadCustomers f)))
      = saveCustomers (loadCustomers f) := by
  have h1 := loadCustomers_after_save (loadCustomers_wf (f := f))
  refine ⟨h1, ?_, ?_⟩
  · rw [h1]
    exact pairwise_lt_specSaveOrder _ _
  · rw [h1]
    unfold saveCustomers
    simp only [savedCustomerRecords, savedRecords_eq_spec, specSaveOrder_idem]

/-- C5 counterexample: a ServiceItem line with a parseable id but a missing
trailing price field is not kept with defaulted fields — `std::stod` throws
on the empty price and the whole line is skipped. -/
theorem claim_C5_counterexample :
    stoi? "7".toList = some 7 ∧ loadServices "7|Brakes".toList = [] :=
  ⟨by decide, by decide⟩

/-- C5 (amended): a line with fewer fields than the schema is kept, with the
missing trailing fields defaulting to the empty string, exactly when the
missing fields are string fields (Customer after the id; Vehicle after the
customerId); when a missing trailing field is numeric (ServiceItem.price,
Discount.percent), the record is skipped even though the id parses. -/
theorem claim_C5 (i : Int) (name : Str) (h1 : IntRange i) (h2 : '|' ∉ name)
    (h3 : '\n' ∉ name) :
    loadCustomers (intToChars i ++ '|' :: name) = [⟨i, name, [], []⟩] ∧
    loadVehicles (intToChars i ++ '|' :: intToChars i) = [⟨i, i, [], [], []⟩] ∧
    loadServices (intToChars i ++ '|' :: name) = [] ∧
    loadDiscounts (intToChars i ++ '|' :: name) = [] :=
  ⟨loadCustomers_single h1 h2 h3, loadVehicles_single h1 h1,
   loadServices_single_missing_price h1 h2 h3, loadDiscounts_single_missing_percent h1 h2 h3⟩

/-- C5 witness at id 7 and name "Bob". -/
theorem claim_C5_witness :
    loadCustomers (intToChars 7 ++ '|' :: "Bob".toList) = [⟨7, "Bob".toList, [], []⟩] ∧
    loadVehicles (intToChars 7 ++ '|' :: intToChars 7) = [⟨7, 7, [], [], []⟩] ∧
    loadServices (intToChars 7 ++ '|' :: "Bob".toList) = [] ∧
    loadDiscounts (intToChars 7 ++ '|' :: "Bob".toList) = [] :=
  claim_C5 7 "Bob".toList (by decide) (by decide) (by decide)

/-- C6: a customer file with one well-formed line, one empty-name line and
one line with no parseable id loads to exactly two records; the malformed
line is dropped silently and the empty-name record is kept with an empty
name. -/
theorem claim_C6 :
    loadCustomers "1|John|123|j@x.com\n2||456|k@y.com\ninvalid|data\n".toList
      = [⟨1, "John".toList, "123".toList, "j@x.com".toList⟩,
         ⟨2, [], "456".toList, "k@y.com".toList⟩] ∧
    (loadCustomers "1|John|123|j@x.com\n2||456|k@y.com\ninvalid|data\n".toList).length = 2 ∧
    ((loadCustomers "1|John|123|j@x.com\n2||456|k@y.com\ninvalid|data\n".toList).getD 1
      ⟨0, [], [], []⟩).name = [] :=
  ⟨by decide, by decide, by decide⟩

/-- C7: the serviceIds list is encoded as one comma-joined pipe slot —
`[1, 2]` yields the slot `1,2` and `[]` an empty slot — and for every list
of C++-representable integers the list round-trips through `saveHistory`
followed by `loadHistory` to the original ordered list. -/
theorem claim_C7 (sids : List Int) (h : ∀ x ∈ sids, IntRange x) :
    saveHistory [⟨1, 1, 1, [1, 2], "2023-10-10 10:00:00".toList, 2000, -1, 0, 2000,
      "Pending".toList⟩]
      = "1|1|1|1,2|2023-10-10 10:00:00|2000|-1|0|2000|Pending\n".toList ∧
    saveHistory [⟨1, 1, 1, [], "2023-10-10 10:00:00".toList, 2000, -1, 0, 2000,
      "Pending".toList⟩]
      = "1|1|1||2023-10-10 10:00:00|2000|-1|0|2000|Pending\n".toList ∧
    loadHistory (saveHistory [⟨1, 1, 1, sids, "2023-10-10 10:00:00".toList, 2000, -1, 0, 2000,
      "Pending".toList⟩])
      = [⟨1, 1, 1, sids, "2023-10-10 10:00:00".toList, 2000, -1, 0, 2000,
          "Pending".toList⟩] :=
  ⟨by decide, by decide, loadHistory_saveHistory_test h⟩

/-- C7 witness at serviceIds `[1, 2]`. -/
theorem claim_C7_witness :
    loadHistory (saveHistory [⟨1, 1, 1, [1, 2], "2023-10-10 10:00:00".toList, 2000, -1, 0, 2000,
      "Pending".toList⟩])
      = [⟨1, 1, 1, [1, 2], "2023-10-10 10:00:00".toList, 2000, -1, 0, 2000,
          "Pending".toList⟩] :=
  (claim_C7 [1, 2] (by decide)).2.2

/-- C8: `ensureDefaultServices` on an empty store writes exactly the six
canonical records, first `(1, "Oil Change", 1200)` and last
`(6, "General Service", 1500)`; a second call leaves the file unchanged, and
on any non-empty store it is a no-op. -/
theorem claim_C8 :
    loadServices (ensureDefaultServices []) = defaultServices ∧
    (loadServices (ensureDefaultServices [])).length = 6 ∧
    (loadServices (ensureDefaultServices [])).head? = some ⟨1, "Oil Change".toList, 1200⟩ ∧
    (loadServices (ensureDefaultServices [])).getLast?
      = some ⟨6, "General Service".toList, 1500⟩ ∧
    ensureDefaultServices (ensureDefaultServices []) = ensureDefaultServices [] ∧
    (∀ f : Str, (loadServices f).isEmpty = false → ensureDefaultServices f = f) := by
  refine ⟨by decide, by decide, by decide, by decide, by decide, ?_⟩
  intro f hf
  unfold ensureDefaultServices
  rw [hf]
  simp

/-- C8 witness: a store holding one service record is left untouched. -/
theorem claim_C8_witness :
    (loadServices "9|X|5\n".toList).isEmpty = false ∧
    ensureDefaultServices "9|X|5\n".toList = "9|X|5\n".toList :=
  ⟨by decide, claim_C8.2.2.2.2.2 "9|X|5\n".toList (by decide)⟩

/-- C9 counterexample: on a file holding duplicate-id lines, deleting id 2
also silently drops the second id-1 record (the save's first-occurrence
dedup), so a record whose id was not deleted vanishes — the claim fails for
such store states. -/
theorem claim_C9_counterexample :
    loadCustomers "1|a|p|e\n1|c|q|f\n2|b|p|e\n".toList
      = [⟨1, "a".toList, "p".toList, "e".toList⟩, ⟨1, "c".toList, "q".toList, "f".toList⟩,
         ⟨2, "b".toList, "p".toList, "e".toList⟩] ∧
    loadCustomers (deleteCustomer "1|a|p|e\n1|c|q|f\n2|b|p|e\n".toList 2)
      = [⟨1, "a".toList, "p".toList, "e".toList⟩] :=
  ⟨by decide, by decide⟩

/-- C9 (amended): for store states whose loaded records have strictly
ascending ids — every file produced by `saveCustomers` — the delete protocol
yields exactly the pre-delete sequence with the deleted id's records
removed, all other records unchanged and in place (deleting an absent id
leaves the file untouched). -/
theorem claim_C9 (f : Str) (d : Int)
    (h : (loadCustomers f).Pairwise (fun a b => a.id < b.id)) :
    loadCustomers (deleteCustomer f d)
      = (loadCustomers f).filter (fun c => ¬ c.id = d) := by
  unfold deleteCustomer
  by_cases hm : (loadCustomers f).any (fun c => decide (c.id = d)) = true
  · rw [if_pos hm]
    have hwf : ∀ c ∈ (loadCustomers f).filter (fun c => ¬ c.id = d), WfCustomer c :=
      fun c hc => loadCustomers_wf c (List.mem_of_mem_filter hc)
    rw [loadCustomers_after_save hwf, specSaveOrder_eq_self (h.filter _)]
  · rw [if_neg hm]
    have hall : ∀ c ∈ loadCustomers f, ¬ c.id = d := by
      simpa using hm
    rw [List.filter_eq_self.mpr (by
      intro c hc
      simpa using hall c hc)]

/-- C9 witness: deleting id 1 from a two-record store keeps exactly the
other record. -/
theorem claim_C9_witness :
    loadCustomers (deleteCustomer "1|a|p|e\n2|b|q|f\n".toList 1)
      = (loadCustomers "1|a|p|e\n2|b|q|f\n".toList).filter (fun c => ¬ c.id = 1) :=
  claim_C9 _ 1 (by decide)

/-- C10: `nextCustomerId` and `nextHistoryId` never return less than 1 — the
scan's running maximum starts at 0 and only increases — and on files holding
only zero or negative ids they return exactly 1. -/
theorem claim_C10 :
    (∀ f : Str, 1 ≤ nextCustomerId f) ∧ (∀ f : Str, 1 ≤ nextHistoryId f) ∧
    nextCustomerId "-5|x|y|z\n0|a|b|c\n".toList = 1 ∧
    nextHistoryId "-7|1|1||d|0|-1|0|0|Pending\n".toList = 1 := by
  refine ⟨?_, ?_, by decide, by decide⟩
  · intro f
    rw [nextCustomerId_eq f]
    have h := foldl_ge_init (g := (max : Int → Int → Int))
      (fun a x => le_max_left a x) (parsedLeadingIds f) 0
    omega
  · intro f
    unfold nextHistoryId
    have h := foldl_ge_init (g := fun maxId line =>
      if line.isEmpty then maxId
      else match cppTokens '|' line with
        | [] => maxId
        | idStr :: _ =>
          match stoi? idStr with
          | none => maxId
          | some i => if maxId < i then i else maxId) (by
        intro a line
        dsimp only
        split
        · exact le_refl a
        · split
          · exact le_refl a
          · split
            · exact le_refl a
            · split <;> omega) (cppTokens '\n' f) 0
    omega

end CarService
